import Mathlib

/-!
# Verification of the governance interception pipeline

Shallow embedding of the governance layer of this repository:

* `PIIFilter.redact`        (packages/core/src/governance/PIIFilter.ts)
* `RiskClassifier.classify` (RiskClassifier, appended to GovernanceEngine.test.ts)
* `OutputGuardrail.validate`(packages/core/src/governance/OutputGuardrail.ts)
* `GovernanceEngine.interceptRequest` / `interceptResponse`
  (the human-in-the-loop engine variant, and the older variant that carries
  a `decision` field in its response result)

The JavaScript regular expressions of the filter are embedded by a small
backtracking matcher (`matchToks`) over token lists; every quantifier in the
source regexes applies to a single character class, so greedy matching with
backtracking over the token list reproduces the JS engine's leftmost, greedy,
non-overlapping global scan (`scanRepl`).

Ambient effects of the source (`randomUUID`, `Date.now`, `process.env.USER`,
the audit logger's file append) are made explicit: identifiers and the
timestamp are parameters, and each engine call returns the list of contexts
handed to `AuditLogger.log` during that call.
-/

set_option autoImplicit false

namespace Governance

/-- `RiskLevel` from types.ts: `enum RiskLevel { LOW, MEDIUM, HIGH, CRITICAL }`. -/
inductive RiskLevel where
  | LOW
  | MEDIUM
  | HIGH
  | CRITICAL
  deriving DecidableEq, Repr

/-- A guardrail decision, the string union `'APPROVED' | 'BLOCKED' | 'FLAGGED_FOR_REVIEW'`
from types.ts. -/
inductive GuardrailDecision where
  | APPROVED
  | BLOCKED
  | FLAGGED_FOR_REVIEW
  deriving DecidableEq, Repr

/-- A content fragment (`Part` of `@google/genai`): either free text (`text` set)
or a non-text payload, which the governance code never inspects beyond
passing it through; `data` stands for such a payload. -/
structure Part where
  text : Option String := none
  data : Option String := none
  deriving DecidableEq, Repr

/-- JS truthiness of an optional string field (`if (part.text)`):
`undefined` and the empty string are falsy. -/
def strTruthy : Option String → Bool
  | some s => s ≠ ""
  | none => false

/-! ## A tiny backtracking regex matcher

Each source regex is a sequence of tokens; a token is a word boundary `\b`
or a character class with a repetition range (`lo` to `hi`, `hi = none`
meaning unbounded), always greedy, as in the JS source. -/

/-- One regex token: a greedy character-class repetition or a word boundary. -/
inductive RTok where
  | cls (p : Char → Bool) (lo : Nat) (hi : Option Nat)
  | wb

/-- A literal character is a class matched exactly once. -/
def RTok.lit (c : Char) : RTok := RTok.cls (fun x => x = c) 1 (some 1)

/-- JS `\w`: ASCII letters, digits and underscore. -/
def isWordChar (c : Char) : Bool :=
  ('a' ≤ c && c ≤ 'z') || ('A' ≤ c && c ≤ 'Z') || ('0' ≤ c && c ≤ '9') || c = '_'

/-- JS `\b` at a position with previous character `prev` (none at string start)
and remaining input `s`: word-ness changes across the position. -/
def isBoundary (prev : Option Char) (s : List Char) : Bool :=
  (prev.map isWordChar).getD false != ((s.head?).map isWordChar).getD false

/-- Length of the longest run of characters satisfying `p` at the head of `s`. -/
def charRun (p : Char → Bool) : List Char → Nat
  | [] => 0
  | c :: cs => if p c then charRun p cs + 1 else 0

/-- Backtracking match of a token list at the head of `s` (with left context
`prev`); returns the number of characters consumed by the first accepting
path in greedy order, exactly as the JS engine attempts a match at one
position.  Greedy repetition tries the longest count first. -/
def matchToks : List RTok → Option Char → List Char → Option Nat
  | [], _, _ => some 0
  | RTok.wb :: rest, prev, s =>
      if isBoundary prev s then matchToks rest prev s else none
  | RTok.cls p lo hi :: rest, prev, s =>
      let m := charRun p s
      let top := match hi with
        | some h => min m h
        | none => m
      if lo ≤ top then
        (List.range (top + 1 - lo)).findSome? fun i =>
          let k := top - i
          let prev' := if k = 0 then prev else (s.take k).getLast?
          (matchToks rest prev' (s.drop k)).map (k + ·)
      else none

/-- One step of the JS global scan with fuel: at each position try a match;
on a non-empty match emit the placeholder and resume after the match
(left context = last matched character of the original string), otherwise
emit the character and advance.  `fuel ≥ length of the input` suffices. -/
def scanRepl (toks : List RTok) (ph : List Char) :
    Nat → Option Char → List Char → List Char
  | 0, _, s => s
  | _ + 1, _, [] => []
  | fuel + 1, prev, c :: cs =>
      match matchToks toks prev (c :: cs) with
      | some n =>
          if n = 0 then
            c :: scanRepl toks ph fuel (some c) cs
          else
            ph ++ scanRepl toks ph fuel (((c :: cs).take n).getLast? <|> prev)
              ((c :: cs).drop n)
      | none => c :: scanRepl toks ph fuel (some c) cs

/-- JS `String.replace` with a global regex: leftmost, non-overlapping,
greedy matches each replaced by the placeholder. -/
def replaceAll (toks : List RTok) (ph : List Char) (s : List Char) : List Char :=
  scanRepl toks ph s.length none s

/-- Does the regex match anywhere in `s` with left context `prev`?
(JS `String.match` with a global regex is truthy iff some match exists.) -/
def hasMatchAux (toks : List RTok) : Option Char → List Char → Bool
  | prev, [] => (matchToks toks prev []).isSome
  | prev, c :: cs => (matchToks toks prev (c :: cs)).isSome || hasMatchAux toks (some c) cs

/-- Truthiness of `s.match(re)` for a global regex `re`. -/
def hasMatch (toks : List RTok) (s : String) : Bool :=
  hasMatchAux toks none s.data

/-! ## The five PIIFilter regexes (PIIFilter.ts) -/

/-- Email local-part class `[a-zA-Z0-9._%+-]`. -/
def emailLocalChar (c : Char) : Bool :=
  ('a' ≤ c && c ≤ 'z') || ('A' ≤ c && c ≤ 'Z') || ('0' ≤ c && c ≤ '9') ||
    c = '.' || c = '_' || c = '%' || c = '+' || c = '-'

/-- Email domain class `[a-zA-Z0-9.-]`. -/
def emailDomainChar (c : Char) : Bool :=
  ('a' ≤ c && c ≤ 'z') || ('A' ≤ c && c ≤ 'Z') || ('0' ≤ c && c ≤ '9') ||
    c = '.' || c = '-'

/-- ASCII letter class `[a-zA-Z]`. -/
def asciiAlpha (c : Char) : Bool :=
  ('a' ≤ c && c ≤ 'z') || ('A' ≤ c && c ≤ 'Z')

/-- ASCII digit class `\d`. -/
def asciiDigit (c : Char) : Bool := '0' ≤ c && c ≤ '9'

/-- Phone separator class `[-.]`. -/
def phoneSep (c : Char) : Bool := c = '-' || c = '.'

/-- Credit-card separator class `[- ]`. -/
def cardSep (c : Char) : Bool := c = '-' || c = ' '

/-- Project-code suffix class `[A-Z0-9]`. -/
def upperOrDigit (c : Char) : Bool := ('A' ≤ c && c ≤ 'Z') || ('0' ≤ c && c ≤ '9')

/-- `/[a-zA-Z0-9._%+-]+@[a-zA-Z0-9.-]+\.[a-zA-Z]{2,}/g` (emailRegex). -/
def emailToks : List RTok :=
  [RTok.cls emailLocalChar 1 none, RTok.lit '@', RTok.cls emailDomainChar 1 none,
    RTok.lit '.', RTok.cls asciiAlpha 2 none]

/-- `/\b\d{3}[-.]?\d{3}[-.]?\d{4}\b/g` (phoneRegex). -/
def phoneToks : List RTok :=
  [RTok.wb, RTok.cls asciiDigit 3 (some 3), RTok.cls phoneSep 0 (some 1),
    RTok.cls asciiDigit 3 (some 3), RTok.cls phoneSep 0 (some 1),
    RTok.cls asciiDigit 4 (some 4), RTok.wb]

/-- `/\bEMP-\d{5,}\b/g` (employeeIdRegex). -/
def empToks : List RTok :=
  [RTok.wb, RTok.lit 'E', RTok.lit 'M', RTok.lit 'P', RTok.lit '-',
    RTok.cls asciiDigit 5 none, RTok.wb]

/-- `/\b(?:\d{4}[- ]?){3}\d{4}\b/g` (creditCardRegex), the exact-count
group unrolled. -/
def cardToks : List RTok :=
  [RTok.wb, RTok.cls asciiDigit 4 (some 4), RTok.cls cardSep 0 (some 1),
    RTok.cls asciiDigit 4 (some 4), RTok.cls cardSep 0 (some 1),
    RTok.cls asciiDigit 4 (some 4), RTok.cls cardSep 0 (some 1),
    RTok.cls asciiDigit 4 (some 4), RTok.wb]

/-- `/\bPROJECT-[A-Z0-9]+\b/g` (projectCodewordRegex). -/
def projToks : List RTok :=
  [RTok.wb, RTok.lit 'P', RTok.lit 'R', RTok.lit 'O', RTok.lit 'J',
    RTok.lit 'E', RTok.lit 'C', RTok.lit 'T', RTok.lit '-',
    RTok.cls upperOrDigit 1 none, RTok.wb]

/-- The PIIFilter pattern table in source evaluation order:
regex, placeholder, justification label. -/
def piiPatterns : List (List RTok × String × String) :=
  [(emailToks, "[REDACTED_EMAIL]", "Email PII detected"),
    (phoneToks, "[REDACTED_PHONE]", "Phone PII detected"),
    (empToks, "[REDACTED_EMP_ID]", "Employee ID detected"),
    (cardToks, "[REDACTED_CREDIT_CARD]", "Credit Card detected"),
    (projToks, "[REDACTED_PROJECT_CODE]", "Project Codeword detected")]

/-! ## PIIFilter.redact (PIIFilter.ts) -/

/-- Result record of `PIIFilter.redact`. -/
structure RedactResult where
  redactedParts : List Part
  wasRedacted : Bool
  justifications : List String
  deriving DecidableEq, Repr

/-- One `if (newText.match(re)) { replace; wasRedacted = true; push label }`
stage of the filter, threading the running justification list (the source
pushes a label only if not already present). -/
def redactStage (st : String × Bool × List String) (pat : List RTok × String × String) :
    String × Bool × List String :=
  if hasMatch pat.1 st.1 then
    (String.mk (replaceAll pat.1 pat.2.1.data st.1.data), true,
      if pat.2.2 ∈ st.2.2 then st.2.2 else st.2.2 ++ [pat.2.2])
  else st

/-- Redaction of one fragment: non-text fragments (and fragments whose `text`
is falsy) pass through untouched; otherwise the five patterns are applied in
order, each to the result of the previous one. -/
def redactPart (p : Part) (w : Bool) (js : List String) :
    Part × Bool × List String :=
  match p.text with
  | some t =>
      if t = "" then (p, w, js)
      else
        let r := piiPatterns.foldl redactStage (t, w, js)
        ({ p with text := some r.1 }, r.2.1, r.2.2)
  | none => (p, w, js)

/-- Fragment-by-fragment loop of `redact`, threading `wasRedacted` and the
deduplicated justification list across fragments as the source's closure does. -/
def redactList : List Part → Bool → List String → List Part × Bool × List String
  | [], w, js => ([], w, js)
  | p :: ps, w, js =>
      let r1 := redactPart p w js
      let r2 := redactList ps r1.2.1 r1.2.2
      (r1.1 :: r2.1, r2.2.1, r2.2.2)

namespace PIIFilter

/-- `PIIFilter.redact(parts)`. -/
def redact (parts : List Part) : RedactResult :=
  let r := redactList parts false []
  ⟨r.1, r.2.1, r.2.2⟩

end PIIFilter

/-! ## RiskClassifier.classify (appended to GovernanceEngine.test.ts) -/

/-- Is `n` a prefix of `s` (on character lists)? -/
def listStartsWith : List Char → List Char → Bool
  | [], _ => true
  | _ :: _, [] => false
  | a :: as, b :: bs => a = b && listStartsWith as bs

/-- Does `hay` contain `n` as a contiguous substring (JS `String.includes`)? -/
def listContains (n : List Char) : List Char → Bool
  | [] => n.isEmpty
  | c :: cs => listStartsWith n (c :: cs) || listContains n cs

/-- JS `combinedText.includes(keyword)`. -/
def strIncludes (hay needle : String) : Bool :=
  listContains needle.data hay.data

/-- ASCII lower-casing, character by character (JS `toLowerCase` on the
ASCII keyword alphabet; `String.toLower` itself is avoided only because its
internal loop does not reduce in the kernel). -/
def toLowerStr (s : String) : String :=
  String.mk (s.data.map Char.toLower)

/-- The scan buffer of the classifier: text fragments concatenated, each
followed by a space (`combinedText += part.text + ' '`), then lower-cased. -/
def combinedText (parts : List Part) : String :=
  toLowerStr (parts.foldl
    (fun acc p =>
      match p.text with
      | some t => if t = "" then acc else acc ++ t ++ " "
      | none => acc)
    "")

namespace RiskClassifier

/-- `RiskClassifier.classify(parts)`: the first keyword rule, in source order,
with a member occurring in the buffer yields HIGH and its category; otherwise
LOW / "General". -/
def classify (parts : List Part) : RiskLevel × String :=
  let buf := combinedText parts
  if strIncludes buf "confidential" || strIncludes buf "secret" ||
      strIncludes buf "proprietary" then
    (RiskLevel.HIGH, "Proprietary Information")
  else if strIncludes buf "hr decision" || strIncludes buf "fire employee" ||
      strIncludes buf "hiring" then
    (RiskLevel.HIGH, "HR Decision")
  else if strIncludes buf "financial advice" || strIncludes buf "invest" ||
      strIncludes buf "stock" then
    (RiskLevel.HIGH, "Financial Advice")
  else if strIncludes buf "medical" || strIncludes buf "diagnosis" then
    (RiskLevel.HIGH, "Medical Advice")
  else (RiskLevel.LOW, "General")

end RiskClassifier

/-! ## OutputGuardrail.validate (OutputGuardrail.ts) -/

/-- `Content` of `@google/genai`: an optional fragment list. -/
structure Content where
  parts : Option (List Part) := none
  deriving DecidableEq, Repr

/-- A response candidate: optional content. -/
structure Candidate where
  content : Option Content := none
  deriving DecidableEq, Repr

/-- `GenerateContentResponse`: an optional candidate list. -/
structure GenerateContentResponse where
  candidates : Option (List Candidate) := none
  deriving DecidableEq, Repr

/-- `response.candidates?.[0]?.content`. -/
def firstCandidateContent (resp : GenerateContentResponse) : Option Content :=
  (resp.candidates.bind List.head?).bind Candidate.content

/-- The scan text of the guardrail:
`content.parts.map(p => p.text || '').join(' ')` (empty when `parts` is
absent; a JS empty array is truthy, and joining it also yields `''`). -/
def joinedText (ct : Content) : String :=
  match ct.parts with
  | some ps => String.intercalate " " (ps.map (fun p => p.text.getD ""))
  | none => ""

namespace OutputGuardrail

/-- `OutputGuardrail.validate(response, riskLevel)`: no first-candidate
content approves immediately; an email match in the joined text blocks
unconditionally; otherwise HIGH risk is flagged for review. -/
def validate (resp : GenerateContentResponse) (riskLevel : RiskLevel) :
    GuardrailDecision × Option String :=
  match firstCandidateContent resp with
  | none => (GuardrailDecision.APPROVED, none)
  | some ct =>
      let text := joinedText ct
      if hasMatch emailToks text then
        (GuardrailDecision.BLOCKED, some "PII detected in output")
      else if riskLevel = RiskLevel.HIGH then
        (GuardrailDecision.FLAGGED_FOR_REVIEW,
          some "High risk use case requires human review")
      else (GuardrailDecision.APPROVED, none)

end OutputGuardrail

/-! ## GovernanceEngine (the human-in-the-loop variant) -/

/-- `IPolicies` from types.ts. -/
structure IPolicies where
  piiRedaction : Bool
  blockHighRisk : Bool
  requireHumanReview : Bool
  deriving DecidableEq, Repr

/-- `DEFAULT_POLICIES` from types.ts. -/
def DEFAULT_POLICIES : IPolicies :=
  { piiRedaction := true, blockHighRisk := false, requireHumanReview := true }

/-- `GovernanceContext` from types.ts.  `modelParams` is an opaque key-value
bag; `timestamp` is the `Date.now()` value. -/
structure GovernanceContext where
  userId : String
  requestId : String
  timestamp : Nat
  originalInput : List Part
  redactedInput : Option (List Part) := none
  riskLevel : Option RiskLevel := none
  riskCategory : Option String := none
  modelVersion : Option String := none
  modelParams : Option (List (String × String)) := none
  output : Option GenerateContentResponse := none
  guardrailDecision : Option GuardrailDecision := none
  justification : Option String := none
  deriving DecidableEq, Repr

/-- The record returned by `interceptRequest`; `requiresApproval` is `none`
where the source leaves the field undefined. -/
structure RequestResult where
  context : GovernanceContext
  proceed : Bool
  error : Option String := none
  requiresApproval : Option Bool := none
  deriving DecidableEq, Repr

/-- A request-phase call outcome: the returned record plus the list of
contexts passed to `AuditLogger.log` during the call, in order. -/
structure RequestOutcome where
  result : RequestResult
  audit : List GovernanceContext
  deriving DecidableEq, Repr

namespace GovernanceEngine

/-- `GovernanceEngine.interceptRequest` of the human-in-the-loop engine
variant.  `policies` is the engine's `this.policies` field (initialised to
`DEFAULT_POLICIES` in the source); `requestId`, `userId` and `timestamp`
stand for `randomUUID()`, `process.env.USER` and `Date.now()`. -/
def interceptRequest (policies : IPolicies) (input : List Part)
    (modelVersion : String) (modelParams : List (String × String))
    (approvalGranted : Bool) (requestId userId : String) (timestamp : Nat) :
    RequestOutcome :=
  let rr := PIIFilter.redact input
  let redactedInput := if policies.piiRedaction then rr.redactedParts else input
  let justification :=
    if policies.piiRedaction ∧ rr.wasRedacted then
      "PII Redacted: " ++ String.intercalate ", " rr.justifications
    else ""
  let lc := RiskClassifier.classify redactedInput
  let context : GovernanceContext :=
    { userId := userId, requestId := requestId, timestamp := timestamp,
      originalInput := input, redactedInput := some redactedInput,
      riskLevel := some lc.1, riskCategory := some lc.2,
      modelVersion := some modelVersion, modelParams := some modelParams,
      justification := some justification }
  if policies.blockHighRisk ∧ lc.1 = RiskLevel.HIGH then
    let ctx' := { context with guardrailDecision := some GuardrailDecision.BLOCKED }
    let res : RequestResult :=
      ⟨ctx', false, some "Request blocked due to High Risk policy.", none⟩
    ⟨res, [ctx']⟩
  else if lc.1 = RiskLevel.HIGH ∧ ¬approvalGranted then
    ⟨⟨context, false, none, some true⟩, []⟩
  else
    ⟨⟨context, true, none, none⟩, []⟩

end GovernanceEngine

/-- The record returned by `interceptResponse` of the human-in-the-loop
engine variant (no `decision` field in its TypeScript return type). -/
structure ResponseResult where
  response : GenerateContentResponse
  proceed : Bool
  error : Option String := none
  deriving DecidableEq, Repr

/-- A response-phase call outcome: `result = none` models the `TypeError`
the source throws when a flagged response carries an empty `parts` array
(`parts[0].text` on `undefined`); the audit list holds the contexts passed
to `AuditLogger.log`, which in the source happens before the throw. -/
structure ResponseOutcome where
  result : Option ResponseResult
  context : GovernanceContext
  audit : List GovernanceContext
  deriving DecidableEq, Repr

/-- The warning banner prepended to flagged output:
`\n\n[GOVERNANCE WARNING: ... High Risk category: ${context.riskCategory}]\n\n`
(an absent category renders as the string `undefined`, as in JS). -/
def governanceWarning (category : Option String) : String :=
  "\n\n[GOVERNANCE WARNING: This output was flagged for human review due to High Risk category: "
    ++ category.getD "undefined" ++ "]\n\n"

/-- Justification accumulation of the response phase:
`context.justification ? context.justification + '; ' + reason : reason`. -/
def appendReason (justification : Option String) (reason : Option String) :
    Option String :=
  match reason with
  | some r =>
      some (match justification with
        | some j => if j = "" then r else j ++ "; " ++ r
        | none => r)
  | none => justification

namespace GovernanceEngine

/-- `GovernanceEngine.interceptResponse` of the human-in-the-loop engine
variant: stores the output on the context, validates, appends the reason,
logs exactly once, then blocks, or rewrites flagged output with the warning
banner, or passes the response through. -/
def interceptResponse (ctx : GovernanceContext) (resp : GenerateContentResponse) :
    ResponseOutcome :=
  let ctx1 := { ctx with output := some resp }
  let vr := OutputGuardrail.validate resp (ctx.riskLevel.getD RiskLevel.LOW)
  let ctx2 := { ctx1 with
    guardrailDecision := some vr.1,
    justification := appendReason ctx1.justification vr.2 }
  let audit := [ctx2]
  if vr.1 = GuardrailDecision.BLOCKED then
    ⟨some ⟨resp, false, some ("Output blocked: " ++ (vr.2.getD "undefined"))⟩,
      ctx2, audit⟩
  else if vr.1 = GuardrailDecision.FLAGGED_FOR_REVIEW then
    match resp.candidates with
    | some (c0 :: crest) =>
        match c0.content with
        | some ct =>
            match ct.parts with
            | some [] => ⟨none, ctx2, audit⟩
            | some (p0 :: prest) =>
                let warning := governanceWarning ctx.riskCategory
                let newParts :=
                  match p0.text with
                  | some t =>
                      if t = "" then Part.mk (some warning) none :: p0 :: prest
                      else { p0 with text := some (warning ++ t) } :: prest
                  | none => Part.mk (some warning) none :: p0 :: prest
                let c0' : Candidate := ⟨some ⟨some newParts⟩⟩
                let resp' : GenerateContentResponse := ⟨some (c0' :: crest)⟩
                ⟨some ⟨resp', true, none⟩, ctx2, audit⟩
            | none => ⟨some ⟨resp, true, none⟩, ctx2, audit⟩
        | none => ⟨some ⟨resp, true, none⟩, ctx2, audit⟩
    | some [] => ⟨some ⟨resp, true, none⟩, ctx2, audit⟩
    | none => ⟨some ⟨resp, true, none⟩, ctx2, audit⟩
  else ⟨some ⟨resp, true, none⟩, ctx2, audit⟩

end GovernanceEngine

/-! ## The older engine variant (no approval flow, a `decision` string in
the response result, no banner rewriting) -/

/-- The record returned by the older variant's `interceptResponse`, which
carries a `decision` string for the client layer. -/
structure ResponseResultV0 where
  response : GenerateContentResponse
  proceed : Bool
  error : Option String := none
  decision : Option String := none
  deriving DecidableEq, Repr

/-- Call outcome of the older variant's response phase. -/
structure ResponseOutcomeV0 where
  result : ResponseResultV0
  context : GovernanceContext
  audit : List GovernanceContext
  deriving DecidableEq, Repr

namespace GovernanceEngineV0

/-- `GovernanceEngine.interceptResponse` of the older engine variant:
identical up to the audit call, then returns the decision as a string and
never rewrites the response ("Logic moved to client layer"). -/
def interceptResponse (ctx : GovernanceContext) (resp : GenerateContentResponse) :
    ResponseOutcomeV0 :=
  let ctx1 := { ctx with output := some resp }
  let vr := OutputGuardrail.validate resp (ctx.riskLevel.getD RiskLevel.LOW)
  let ctx2 := { ctx1 with
    guardrailDecision := some vr.1,
    justification := appendReason ctx1.justification vr.2 }
  let audit := [ctx2]
  if vr.1 = GuardrailDecision.BLOCKED then
    ⟨⟨resp, false, some ("Output blocked: " ++ (vr.2.getD "undefined")), none⟩,
      ctx2, audit⟩
  else if vr.1 = GuardrailDecision.FLAGGED_FOR_REVIEW then
    ⟨⟨resp, true, some "Output flagged for review", some "FLAGGED_FOR_REVIEW"⟩,
      ctx2, audit⟩
  else ⟨⟨resp, true, none, some "APPROVED"⟩, ctx2, audit⟩

end GovernanceEngineV0

/-! ## Statement helpers -/

/-- The message the engine classifies: the redacted input when redaction is
enabled by policy, the original otherwise. -/
def requestRedacted (policies : IPolicies) (input : List Part) : List Part :=
  if policies.piiRedaction then (PIIFilter.redact input).redactedParts else input

/-- The risk level `interceptRequest` computes for a given policy and input. -/
def requestLevel (policies : IPolicies) (input : List Part) : RiskLevel :=
  (RiskClassifier.classify (requestRedacted policies input)).1

/-- The text the output guardrail scans (empty when there is no first
candidate content). -/
def firstCandidateText (resp : GenerateContentResponse) : String :=
  match firstCandidateContent resp with
  | some ct => joinedText ct
  | none => ""

/-- The `text` of the leading fragment of a response, when present. -/
def leadingText (resp : GenerateContentResponse) : Option String :=
  ((((resp.candidates.bind List.head?).bind Candidate.content).bind
    Content.parts).bind List.head?).bind Part.text

/-! ## Shared lemmas about the response phase -/

theorem interceptResponse_audit_eq (ctx : GovernanceContext)
    (resp : GenerateContentResponse) :
    (GovernanceEngine.interceptResponse ctx resp).audit =
      [(GovernanceEngine.interceptResponse ctx resp).context] := by
  simp only [GovernanceEngine.interceptResponse]
  repeat' split
  all_goals rfl

theorem interceptResponse_context_decision (ctx : GovernanceContext)
    (resp : GenerateContentResponse) :
    (GovernanceEngine.interceptResponse ctx resp).context.guardrailDecision =
      some (OutputGuardrail.validate resp (ctx.riskLevel.getD RiskLevel.LOW)).1 := by
  simp only [GovernanceEngine.interceptResponse]
  repeat' split
  all_goals rfl

/-! ## Claim theorems -/

/-- C5: every call to `interceptResponse` hands exactly one entry to the
audit sink, whatever the decision (the statement is for all contexts and
responses, hence for APPROVED, BLOCKED and FLAGGED_FOR_REVIEW alike), and
the logged context already carries the guardrail decision computed by output
validation — the entry is written after validation; it is part of the call's
outcome even in the branch whose result never returns, so it precedes the
return of the decision. -/
theorem c5_response_always_audited_once (ctx : GovernanceContext)
    (resp : GenerateContentResponse) :
    (GovernanceEngine.interceptResponse ctx resp).audit =
      [(GovernanceEngine.interceptResponse ctx resp).context] ∧
    (GovernanceEngine.interceptResponse ctx resp).context.guardrailDecision =
      some (OutputGuardrail.validate resp (ctx.riskLevel.getD RiskLevel.LOW)).1 :=
  ⟨interceptResponse_audit_eq ctx resp, interceptResponse_context_decision ctx resp⟩

/-- A concrete response whose only candidate's text contains an email
address. -/
def respWithEmail : GenerateContentResponse :=
  ⟨some [⟨some ⟨some [⟨some "contact a@b.cd now", none⟩]⟩⟩]⟩

/-- C3, counterexample: on a response containing an email address the
guardrail blocks, but its reason is the string `PII detected in output`,
not `sensitive data detected in output` as claimed. -/
theorem c3_reason_string_counterexample :
    (OutputGuardrail.validate respWithEmail RiskLevel.LOW).1 =
      GuardrailDecision.BLOCKED ∧
    (OutputGuardrail.validate respWithEmail RiskLevel.LOW).2 ≠
      some "sensitive data detected in output" := by
  constructor
  · rfl
  · decide

/-- C3, amended: for every response whose first-candidate joined fragment
text contains an email-pattern match, and every risk level, `validate`
returns BLOCKED with reason `PII detected in output`; the check is
independent of the risk level (so it takes precedence over the
FLAGGED_FOR_REVIEW outcome for HIGH), and the response phase still writes
exactly one audit entry. -/
theorem c3_email_in_output_blocks (resp : GenerateContentResponse)
    (level : RiskLevel) (ct : Content)
    (hct : firstCandidateContent resp = some ct)
    (he : hasMatch emailToks (joinedText ct) = true) :
    OutputGuardrail.validate resp level =
      (GuardrailDecision.BLOCKED, some "PII detected in output") ∧
    ∀ ctx : GovernanceContext,
      (GovernanceEngine.interceptResponse ctx resp).audit.length = 1 := by
  constructor
  · simp only [OutputGuardrail.validate, hct, he]
    rfl
  · intro ctx
    rw [interceptResponse_audit_eq]
    rfl

/-- Witness for C3: the hypotheses hold at `respWithEmail`, and the amended
conclusion follows at that input. -/
theorem c3_email_in_output_blocks_witness :
    firstCandidateContent respWithEmail = some ⟨some [⟨some "contact a@b.cd now", none⟩]⟩ ∧
    hasMatch emailToks (joinedText ⟨some [⟨some "contact a@b.cd now", none⟩]⟩) = true ∧
    OutputGuardrail.validate respWithEmail RiskLevel.HIGH =
      (GuardrailDecision.BLOCKED, some "PII detected in output") :=
  ⟨rfl, by decide,
    (c3_email_in_output_blocks respWithEmail RiskLevel.HIGH
      ⟨some [⟨some "contact a@b.cd now", none⟩]⟩ rfl (by decide)).1⟩

/-- C10: `validate` scans only the first candidate: with no first-candidate
content the decision is APPROVED with no reason, and whenever the joined
text of the first candidate has no email match the decision is never
BLOCKED — in particular sensitive data in any other candidate cannot block. -/
theorem c10_validate_scans_only_first_candidate (resp : GenerateContentResponse)
    (level : RiskLevel) :
    (firstCandidateContent resp = none →
      OutputGuardrail.validate resp level = (GuardrailDecision.APPROVED, none)) ∧
    (hasMatch emailToks (firstCandidateText resp) = false →
      (OutputGuardrail.validate resp level).1 ≠ GuardrailDecision.BLOCKED) := by
  constructor
  · intro h
    simp only [OutputGuardrail.validate, h]
  · intro h
    simp only [OutputGuardrail.validate]
    cases hct : firstCandidateContent resp with
    | none => simp
    | some ct =>
        rw [firstCandidateText, hct] at h
        simp only [h, Bool.false_eq_true, if_false]
        split <;> simp

/-- A response whose first candidate is clean and whose second candidate's
text contains an email address. -/
def respEmailInSecond : GenerateContentResponse :=
  ⟨some [⟨some ⟨some [⟨some "all clear", none⟩]⟩⟩,
    ⟨some ⟨some [⟨some "write to a@b.cd", none⟩]⟩⟩]⟩

/-- Witness for C10: a response with no first-candidate content is approved,
and a response whose second candidate leaks an email is still not blocked. -/
theorem c10_validate_scans_only_first_candidate_witness :
    firstCandidateContent (⟨some [⟨none⟩]⟩ : GenerateContentResponse) = none ∧
    OutputGuardrail.validate ⟨some [⟨none⟩]⟩ RiskLevel.HIGH =
      (GuardrailDecision.APPROVED, none) ∧
    hasMatch emailToks (firstCandidateText respEmailInSecond) = false ∧
    hasMatch emailToks (joinedText ⟨some [⟨some "write to a@b.cd", none⟩]⟩) = true ∧
    (OutputGuardrail.validate respEmailInSecond RiskLevel.LOW).1 ≠
      GuardrailDecision.BLOCKED :=
  ⟨rfl,
    (c10_validate_scans_only_first_candidate ⟨some [⟨none⟩]⟩ RiskLevel.HIGH).1 rfl,
    by decide, by decide,
    (c10_validate_scans_only_first_candidate respEmailInSecond RiskLevel.LOW).2
      (by decide)⟩

/-! ## C4: the classifier -/

/-- The classifier's rule table as the spec states it: keyword sets with
their category labels, in the fixed evaluation order. -/
def classifierRules : List (List String × String) :=
  [(["confidential", "secret", "proprietary"], "Proprietary Information"),
    (["hr decision", "fire employee", "hiring"], "HR Decision"),
    (["financial advice", "invest", "stock"], "Financial Advice"),
    (["medical", "diagnosis"], "Medical Advice")]

/-- First-matching-rule semantics, following the spec's words: the first
rule with a member occurring as a substring of the buffer yields HIGH and
its category; no match yields LOW and General. -/
def specFirstMatch : List (List String × String) → String → RiskLevel × String
  | [], _ => (RiskLevel.LOW, "General")
  | (kws, cat) :: rest, buf =>
      if kws.any (fun k => strIncludes buf k) then (RiskLevel.HIGH, cat)
      else specFirstMatch rest buf

/-- C4, counterexample: `classify("I need to fire an employee")` returns
`(LOW, "General")`, not `(HIGH, "HR Decision")` — none of the HR keywords
(`hr decision`, `fire employee`, `hiring`) occurs in the buffer
`i need to fire an employee `. -/
theorem c4_fire_an_employee_counterexample :
    RiskClassifier.classify [⟨some "I need to fire an employee", none⟩] =
      (RiskLevel.LOW, "General") ∧
    RiskClassifier.classify [⟨some "I need to fire an employee", none⟩] ≠
      (RiskLevel.HIGH, "HR Decision") := by
  constructor
  · rfl
  · decide

/-- C4, amended: `classify("I need to fire employee")` (the trigger phrase
without the intervening article, as in the repository's tests) returns
`(HIGH, "HR Decision")`, `classify("hello world")` returns
`(LOW, "General")`, and in general `classify` agrees with first-matching-rule
semantics over the fixed rule table on the case-folded space-joined buffer. -/
theorem c4_classifier_first_rule_semantics :
    RiskClassifier.classify [⟨some "I need to fire employee", none⟩] =
      (RiskLevel.HIGH, "HR Decision") ∧
    RiskClassifier.classify [⟨some "hello world", none⟩] =
      (RiskLevel.LOW, "General") ∧
    ∀ parts : List Part,
      RiskClassifier.classify parts = specFirstMatch classifierRules (combinedText parts) := by
  refine ⟨rfl, rfl, fun parts => ?_⟩
  simp only [RiskClassifier.classify, specFirstMatch, classifierRules,
    List.any_cons, List.any_nil, Bool.or_false, Bool.or_assoc]

/-! ## C9: presence of the redacted-message attribute -/

/-- C9, counterexample: the context's `redactedInput` is never absent — it
is set both when redaction produces no change (here, `hello world`) and
when redaction is disabled by policy. -/
theorem c9_redacted_input_always_present_counterexample :
    (GovernanceEngine.interceptRequest DEFAULT_POLICIES
      [⟨some "hello world", none⟩] "gemini" [] false "rid" "uid" 0).result.context.redactedInput ≠
      none ∧
    (GovernanceEngine.interceptRequest { DEFAULT_POLICIES with piiRedaction := false }
      [⟨some "hello world", none⟩] "gemini" [] false "rid" "uid" 0).result.context.redactedInput ≠
      none := by
  constructor <;> decide

/-- C9, amended: the transaction context returned by `interceptRequest`
always carries a present `redactedInput`; when redaction is disabled by
policy, or produced no change, it equals the original input message. -/
theorem c9_redacted_input_presence (p : IPolicies) (input : List Part)
    (mv : String) (mp : List (String × String)) (ag : Bool)
    (reqId uid : String) (ts : Nat) :
    (∃ l, (GovernanceEngine.interceptRequest p input mv mp ag reqId uid
      ts).result.context.redactedInput = some l) ∧
    (p.piiRedaction = false ∨ (PIIFilter.redact input).redactedParts = input →
      (GovernanceEngine.interceptRequest p input mv mp ag reqId uid
        ts).result.context.redactedInput = some input) := by
  constructor
  · simp only [GovernanceEngine.interceptRequest]
    repeat' split
    all_goals exact ⟨_, rfl⟩
  · intro h
    have hred : (if p.piiRedaction then (PIIFilter.redact input).redactedParts else input) =
        input := by
      rcases h with h | h
      · simp [h]
      · simp [h]
    simp only [GovernanceEngine.interceptRequest, hred]
    repeat' split
    all_goals rfl

/-- Witness for C9: with redaction enabled and a message the filter leaves
unchanged, the returned context's `redactedInput` equals the input. -/
theorem c9_redacted_input_presence_witness :
    (PIIFilter.redact [⟨some "hello world", none⟩]).redactedParts =
      [⟨some "hello world", none⟩] ∧
    (GovernanceEngine.interceptRequest DEFAULT_POLICIES
      [⟨some "hello world", none⟩] "gemini" [] false "rid" "uid" 0).result.context.redactedInput =
      some [⟨some "hello world", none⟩] :=
  ⟨by decide,
    (c9_redacted_input_presence DEFAULT_POLICIES [⟨some "hello world", none⟩]
      "gemini" [] false "rid" "uid" 0).2 (Or.inr (by decide))⟩

/-! ## C1 and C2: the request-phase policy gate -/

/-- C1: under the default policy (`blockHighRisk = false`), a HIGH-risk
request without approval returns `proceed = false` with
`requiresApproval = true` and hands nothing to the audit sink; the same
call with `approvalGranted = true` returns `proceed = true` and still
produces no request-phase audit entry. -/
theorem c1_high_risk_approval_flow (input : List Part) (mv : String)
    (mp : List (String × String)) (reqId uid : String) (ts : Nat)
    (hHigh : requestLevel DEFAULT_POLICIES input = RiskLevel.HIGH) :
    (GovernanceEngine.interceptRequest DEFAULT_POLICIES input mv mp false reqId
      uid ts).result.proceed = false ∧
    (GovernanceEngine.interceptRequest DEFAULT_POLICIES input mv mp false reqId
      uid ts).result.requiresApproval = some true ∧
    (GovernanceEngine.interceptRequest DEFAULT_POLICIES input mv mp false reqId
      uid ts).audit = [] ∧
    (GovernanceEngine.interceptRequest DEFAULT_POLICIES input mv mp true reqId
      uid ts).result.proceed = true ∧
    (GovernanceEngine.interceptRequest DEFAULT_POLICIES input mv mp true reqId
      uid ts).audit = [] := by
  have h : (RiskClassifier.classify (PIIFilter.redact input).redactedParts).1 =
      RiskLevel.HIGH := by
    simpa [requestLevel, requestRedacted, DEFAULT_POLICIES] using hHigh
  refine ⟨?_, ?_, ?_, ?_, ?_⟩ <;>
    simp [GovernanceEngine.interceptRequest, DEFAULT_POLICIES, h]

/-- Witness for C1 at the HIGH-risk message of the repository's tests. -/
theorem c1_high_risk_approval_flow_witness :
    requestLevel DEFAULT_POLICIES [⟨some "I need to fire employee", none⟩] =
      RiskLevel.HIGH ∧
    (GovernanceEngine.interceptRequest DEFAULT_POLICIES
      [⟨some "I need to fire employee", none⟩] "gemini" [] false "rid" "uid"
      0).result.requiresApproval = some true ∧
    (GovernanceEngine.interceptRequest DEFAULT_POLICIES
      [⟨some "I need to fire employee", none⟩] "gemini" [] true "rid" "uid"
      0).result.proceed = true :=
  ⟨by decide,
    (c1_high_risk_approval_flow [⟨some "I need to fire employee", none⟩]
      "gemini" [] "rid" "uid" 0 (by decide)).2.1,
    (c1_high_risk_approval_flow [⟨some "I need to fire employee", none⟩]
      "gemini" [] "rid" "uid" 0 (by decide)).2.2.2.1⟩

/-- C2: with `blockHighRisk = true`, a HIGH-risk request (with or without
approval) returns `proceed = false` with the block error and no
`requiresApproval` flag, sets the context's guardrail decision to BLOCKED,
hands exactly that context to the audit sink — and this is the only way the
request phase ever produces an audit entry. -/
theorem c2_block_high_risk_audits_once (p : IPolicies) (input : List Part)
    (mv : String) (mp : List (String × String)) (ag : Bool)
    (reqId uid : String) (ts : Nat)
    (hb : p.blockHighRisk = true)
    (hHigh : requestLevel p input = RiskLevel.HIGH) :
    (GovernanceEngine.interceptRequest p input mv mp ag reqId uid
      ts).result.proceed = false ∧
    (GovernanceEngine.interceptRequest p input mv mp ag reqId uid
      ts).result.error = some "Request blocked due to High Risk policy." ∧
    (GovernanceEngine.interceptRequest p input mv mp ag reqId uid
      ts).result.requiresApproval = none ∧
    (GovernanceEngine.interceptRequest p input mv mp ag reqId uid ts).audit =
      [(GovernanceEngine.interceptRequest p input mv mp ag reqId uid
        ts).result.context] ∧
    (GovernanceEngine.interceptRequest p input mv mp ag reqId uid
      ts).result.context.guardrailDecision = some GuardrailDecision.BLOCKED ∧
    (∀ (q : IPolicies) (input2 : List Part) (mv2 : String)
      (mp2 : List (String × String)) (ag2 : Bool) (r2 u2 : String) (t2 : Nat),
      (GovernanceEngine.interceptRequest q input2 mv2 mp2 ag2 r2 u2 t2).audit ≠ [] →
      q.blockHighRisk = true ∧ requestLevel q input2 = RiskLevel.HIGH) := by
  have h : (RiskClassifier.classify
      (if p.piiRedaction then (PIIFilter.redact input).redactedParts else input)).1 =
      RiskLevel.HIGH := by
    simpa [requestLevel, requestRedacted] using hHigh
  refine ⟨?_, ?_, ?_, ?_, ?_, ?_⟩
  · simp [GovernanceEngine.interceptRequest, hb, h]
  · simp [GovernanceEngine.interceptRequest, hb, h]
  · simp [GovernanceEngine.interceptRequest, hb, h]
  · simp [GovernanceEngine.interceptRequest, hb, h]
  · simp [GovernanceEngine.interceptRequest, hb, h]
  · intro q input2 mv2 mp2 ag2 r2 u2 t2 hne
    by_cases hq : q.blockHighRisk = true ∧ (RiskClassifier.classify
        (if q.piiRedaction then (PIIFilter.redact input2).redactedParts else input2)).1 =
        RiskLevel.HIGH
    · exact ⟨hq.1, by simpa [requestLevel, requestRedacted] using hq.2⟩
    · exfalso
      apply hne
      simp only [GovernanceEngine.interceptRequest]
      rw [if_neg hq]
      repeat' split
      all_goals rfl

/-- Witness for C2 at the HIGH-risk message with blocking enabled. -/
theorem c2_block_high_risk_audits_once_witness :
    ({ DEFAULT_POLICIES with blockHighRisk := true } : IPolicies).blockHighRisk = true ∧
    requestLevel { DEFAULT_POLICIES with blockHighRisk := true }
      [⟨some "I need to fire employee", none⟩] = RiskLevel.HIGH ∧
    (GovernanceEngine.interceptRequest { DEFAULT_POLICIES with blockHighRisk := true }
      [⟨some "I need to fire employee", none⟩] "gemini" [] false "rid" "uid"
      0).result.error = some "Request blocked due to High Risk policy." ∧
    (GovernanceEngine.interceptRequest { DEFAULT_POLICIES with blockHighRisk := true }
      [⟨some "I need to fire employee", none⟩] "gemini" [] false "rid" "uid"
      0).result.context.guardrailDecision = some GuardrailDecision.BLOCKED :=
  ⟨rfl, by decide,
    (c2_block_high_risk_audits_once { DEFAULT_POLICIES with blockHighRisk := true }
      [⟨some "I need to fire employee", none⟩] "gemini" [] false "rid" "uid" 0
      rfl (by decide)).2.1,
    (c2_block_high_risk_audits_once { DEFAULT_POLICIES with blockHighRisk := true }
      [⟨some "I need to fire employee", none⟩] "gemini" [] false "rid" "uid" 0
      rfl (by decide)).2.2.2.2.1⟩

/-! ## C6: flagged output and the warning banner -/

theorem listStartsWith_append (l m : List Char) :
    listStartsWith l (l ++ m) = true := by
  induction l with
  | nil => rfl
  | cons c cs ih => simp [listStartsWith, ih]

theorem listStartsWith_refl (l : List Char) : listStartsWith l l = true := by
  simpa using listStartsWith_append l []

/-- A HIGH-risk transaction context with the HR category, as produced by a
classified request. -/
def ctxHighHR : GovernanceContext :=
  { userId := "u", requestId := "r", timestamp := 0, originalInput := [],
    riskLevel := some RiskLevel.HIGH, riskCategory := some "HR Decision",
    justification := some "" }

/-- A clean single-text-fragment response. -/
def respCleanText : GenerateContentResponse :=
  ⟨some [⟨some ⟨some [⟨some "Here is the letter.", none⟩]⟩⟩]⟩

/-- C6, counterexample: the engine variant whose response result carries a
`decision` field does return `decision = FLAGGED_FOR_REVIEW` with
`proceed = true` on a HIGH-risk context and clean text, but hands the
response back unchanged: its leading text fragment does not start with the
governance warning banner (the banner rewriting exists only in the
human-in-the-loop variant, whose result carries no decision field). -/
theorem c6_flagged_decision_no_banner_counterexample :
    (GovernanceEngineV0.interceptResponse ctxHighHR respCleanText).result.decision =
      some "FLAGGED_FOR_REVIEW" ∧
    (GovernanceEngineV0.interceptResponse ctxHighHR respCleanText).result.proceed =
      true ∧
    (GovernanceEngineV0.interceptResponse ctxHighHR respCleanText).result.response =
      respCleanText ∧
    leadingText (GovernanceEngineV0.interceptResponse ctxHighHR
      respCleanText).result.response = some "Here is the letter." ∧
    listStartsWith (governanceWarning ctxHighHR.riskCategory).data
      "Here is the letter.".data = false := by
  refine ⟨?_, ?_, ?_, ?_, ?_⟩
  · rfl
  · rfl
  · rfl
  · rfl
  · decide

/-- C6, amended: in the human-in-the-loop engine, for a HIGH-risk context
and a response whose first-candidate text has no sensitive-data match and
whose fragment list is non-empty, `interceptResponse` returns
`proceed = true`, records FLAGGED_FOR_REVIEW on the context (the result
record itself carries no decision field — only the older engine variant
returns one, and that variant does not rewrite the response), and the
returned response's leading text fragment starts with the governance warning
banner containing the stored risk category (a new leading fragment is
inserted when the first fragment is non-text). -/
theorem c6_flagged_output_gets_banner (ctx : GovernanceContext)
    (resp : GenerateContentResponse) (c0 : Candidate) (crest : List Candidate)
    (ct : Content) (p0 : Part) (prest : List Part)
    (hHigh : ctx.riskLevel = some RiskLevel.HIGH)
    (hcand : resp.candidates = some (c0 :: crest))
    (hct : c0.content = some ct)
    (hparts : ct.parts = some (p0 :: prest))
    (hclean : hasMatch emailToks (joinedText ct) = false) :
    ∃ r : ResponseResult,
      (GovernanceEngine.interceptResponse ctx resp).result = some r ∧
      r.proceed = true ∧
      (GovernanceEngine.interceptResponse ctx resp).context.guardrailDecision =
        some GuardrailDecision.FLAGGED_FOR_REVIEW ∧
      ∃ s : String, leadingText r.response = some s ∧
        listStartsWith (governanceWarning ctx.riskCategory).data s.data = true := by
  have hfc : firstCandidateContent resp = some ct := by
    simp [firstCandidateContent, hcand, hct]
  have hval : OutputGuardrail.validate resp (ctx.riskLevel.getD RiskLevel.LOW) =
      (GuardrailDecision.FLAGGED_FOR_REVIEW,
        some "High risk use case requires human review") := by
    simp [OutputGuardrail.validate, hfc, hclean, hHigh]
  simp only [GovernanceEngine.interceptResponse, hval, hcand, hct, hparts,
    reduceCtorEq, if_false, if_true, reduceIte]
  cases hp0 : p0.text with
  | some t =>
      by_cases ht : t = ""
      · refine ⟨_, rfl, rfl, trivial, governanceWarning ctx.riskCategory, ?_, ?_⟩
        · simp [leadingText, hp0, ht]
        · exact listStartsWith_refl _
      · refine ⟨_, rfl, rfl, trivial, governanceWarning ctx.riskCategory ++ t, ?_, ?_⟩
        · simp [leadingText, hp0, ht]
        · rw [String.data_append]
          exact listStartsWith_append _ _
  | none =>
      refine ⟨_, rfl, rfl, trivial, governanceWarning ctx.riskCategory, ?_, ?_⟩
      · simp [leadingText, hp0]
      · exact listStartsWith_refl _

/-- Witness for C6: the amended conclusion at a concrete HIGH-risk context
and clean response. -/
theorem c6_flagged_output_gets_banner_witness :
    ctxHighHR.riskLevel = some RiskLevel.HIGH ∧
    respCleanText.candidates =
      some [⟨some ⟨some [⟨some "Here is the letter.", none⟩]⟩⟩] ∧
    hasMatch emailToks
      (joinedText ⟨some [⟨some "Here is the letter.", none⟩]⟩) = false ∧
    ∃ r : ResponseResult,
      (GovernanceEngine.interceptResponse ctxHighHR respCleanText).result = some r ∧
      r.proceed = true ∧
      (GovernanceEngine.interceptResponse ctxHighHR
        respCleanText).context.guardrailDecision =
        some GuardrailDecision.FLAGGED_FOR_REVIEW ∧
      ∃ s : String, leadingText r.response = some s ∧
        listStartsWith (governanceWarning ctxHighHR.riskCategory).data s.data = true :=
  ⟨rfl, rfl, by decide,
    c6_flagged_output_gets_banner ctxHighHR respCleanText
      ⟨some ⟨some [⟨some "Here is the letter.", none⟩]⟩⟩ []
      ⟨some [⟨some "Here is the letter.", none⟩]⟩
      ⟨some "Here is the letter.", none⟩ []
      rfl rfl rfl rfl (by decide)⟩

/-! ## C7: the redaction flag and the no-match identity -/

/-- Did the staged pipeline replace anything in this text?  The flag of the
five-stage fold started from a clean state. -/
def textReplacementOccurred (t : String) : Bool :=
  (piiPatterns.foldl redactStage (t, false, [])).2.1

/-- Did redaction replace anything in some fragment of the message? -/
def replacementOccurred (parts : List Part) : Bool :=
  parts.any fun p =>
    match p.text with
    | some t => if t = "" then false else textReplacementOccurred t
    | none => false

/-- No pattern of the filter matches this fragment's text. -/
def partPatternFree (p : Part) : Bool :=
  match p.text with
  | some t => piiPatterns.all fun pat => !hasMatch pat.1 t
  | none => true

/-- No pattern of the filter matches any fragment of the message. -/
def noPatternMatches (parts : List Part) : Bool := parts.all partPatternFree

/-- The staged fold's text output ignores the incoming flag and
justification state, and its flag output is the disjunction of the incoming
flag with the clean-state flag. -/
theorem foldl_redactStage_norm (pats : List (List RTok × String × String)) :
    ∀ (t : String) (w : Bool) (js : List String),
      (pats.foldl redactStage (t, w, js)).1 =
        (pats.foldl redactStage (t, false, [])).1 ∧
      (pats.foldl redactStage (t, w, js)).2.1 =
        (w || (pats.foldl redactStage (t, false, [])).2.1) := by
  induction pats with
  | nil => intro t w js; exact ⟨rfl, by simp⟩
  | cons pat rest ih =>
      intro t w js
      simp only [List.foldl_cons]
      dsimp only [redactStage]
      by_cases hc : hasMatch pat.1 t = true
      · rw [if_pos hc, if_pos hc]
        constructor
        · exact (ih _ _ _).1.trans ((ih _ _ _).1).symm
        · rw [(ih _ true _).2, (ih _ true _).2]
          simp
      · rw [if_neg hc, if_neg hc]
        exact ih t w js

/-- The fragment loop's part list ignores the incoming flag and
justification state, and its flag output is the disjunction of the incoming
flag with the clean-state flag. -/
theorem redactList_norm (parts : List Part) :
    ∀ (w : Bool) (js : List String),
      (redactList parts w js).1 = (redactList parts false []).1 ∧
      (redactList parts w js).2.1 = (w || (redactList parts false []).2.1) := by
  induction parts with
  | nil => intro w js; simp [redactList]
  | cons p ps ih =>
      intro w js
      cases hp : p.text with
      | none =>
          simp only [redactList, redactPart, hp]
          exact ⟨by rw [(ih w js).1, (ih false []).1],
            by rw [(ih w js).2, (ih false []).2]⟩
      | some t =>
          by_cases ht : t = ""
          · simp only [redactList, redactPart, hp, ht, eq_self_iff_true, ite_true]
            exact ⟨by rw [(ih w js).1, (ih false []).1],
              by rw [(ih w js).2, (ih false []).2]⟩
          · simp only [redactList, redactPart, hp]
            rw [if_neg ht, if_neg ht]
            have htext := (foldl_redactStage_norm piiPatterns t w js).1
            have hflag := (foldl_redactStage_norm piiPatterns t w js).2
            constructor
            · dsimp only
              rw [htext,
                (ih (List.foldl redactStage (t, w, js) piiPatterns).2.1
                  (List.foldl redactStage (t, w, js) piiPatterns).2.2).1,
                (ih (List.foldl redactStage (t, false, []) piiPatterns).2.1
                  (List.foldl redactStage (t, false, []) piiPatterns).2.2).1]
            · dsimp only
              rw [(ih (List.foldl redactStage (t, w, js) piiPatterns).2.1
                  (List.foldl redactStage (t, w, js) piiPatterns).2.2).2,
                (ih (List.foldl redactStage (t, false, []) piiPatterns).2.1
                  (List.foldl redactStage (t, false, []) piiPatterns).2.2).2,
                hflag]
              simp [Bool.or_assoc]

/-- The filter's `wasRedacted` flag is exactly the replacement event. -/
theorem redact_wasRedacted_eq (parts : List Part) :
    (PIIFilter.redact parts).wasRedacted = replacementOccurred parts := by
  induction parts with
  | nil => rfl
  | cons p ps ih =>
      show (redactList (p :: ps) false []).2.1 = _
      cases hp : p.text with
      | none =>
          simp only [redactList, redactPart, hp, replacementOccurred, List.any_cons]
          rw [show (PIIFilter.redact ps).wasRedacted =
            (redactList ps false []).2.1 from rfl] at ih
          rw [ih]
          simp [replacementOccurred]
      | some t =>
          by_cases ht : t = ""
          · simp only [redactList, redactPart, hp, ht, eq_self_iff_true, ite_true,
              replacementOccurred, List.any_cons]
            rw [show (PIIFilter.redact ps).wasRedacted =
              (redactList ps false []).2.1 from rfl] at ih
            rw [ih]
            simp [replacementOccurred]
          · simp only [redactList, redactPart, hp]
            rw [if_neg ht]
            rw [(redactList_norm ps _ _).2]
            rw [show (PIIFilter.redact ps).wasRedacted =
              (redactList ps false []).2.1 from rfl] at ih
            rw [ih]
            simp only [replacementOccurred, List.any_cons, hp]
            rw [if_neg ht]
            rfl

/-- A text no pattern matches passes through every stage unchanged. -/
theorem foldl_redactStage_nomatch (pats : List (List RTok × String × String)) :
    ∀ (t : String) (w : Bool) (js : List String),
      pats.all (fun pat => !hasMatch pat.1 t) = true →
      pats.foldl redactStage (t, w, js) = (t, w, js) := by
  induction pats with
  | nil => intro t w js _; rfl
  | cons pat rest ih =>
      intro t w js hall
      rw [List.all_cons, Bool.and_eq_true] at hall
      have hc : hasMatch pat.1 t = false := by
        revert hall; cases hasMatch pat.1 t <;> simp
      simp only [List.foldl_cons]
      dsimp only [redactStage]
      rw [if_neg (by simp [hc])]
      exact ih t w js hall.2

/-- A message no pattern matches passes through the fragment loop unchanged. -/
theorem redactList_nomatch (parts : List Part) :
    ∀ (w : Bool) (js : List String),
      noPatternMatches parts = true →
      redactList parts w js = (parts, w, js) := by
  induction parts with
  | nil => intro w js _; rfl
  | cons p ps ih =>
      intro w js hall
      rw [noPatternMatches, List.all_cons, Bool.and_eq_true] at hall
      have hps : noPatternMatches ps = true := hall.2
      cases hp : p.text with
      | none =>
          simp only [redactList, redactPart, hp]
          rw [ih w js hps]
      | some t =>
          by_cases ht : t = ""
          · simp only [redactList, redactPart, hp, ht, eq_self_iff_true, ite_true]
            rw [ih w js hps]
          · have hfree : piiPatterns.all (fun pat => !hasMatch pat.1 t) = true := by
              have := hall.1
              rw [partPatternFree, hp] at this
              exact this
            simp only [redactList, redactPart, hp]
            rw [if_neg ht]
            rw [foldl_redactStage_nomatch piiPatterns t w js hfree]
            have hpe : ({ p with text := some t } : Part) = p := by
              cases p with
              | mk tx d => simp only at hp; rw [hp]
            rw [hpe, ih w js hps]

/-- C7: `redact` is a pure function of its input (the original message is a
value the embedding never alters); its `wasRedacted` flag is true exactly
when at least one replacement occurred in some fragment, and on a message no
pattern matches it returns the input byte-for-byte with `wasRedacted = false`
and an empty reasons list. -/
theorem c7_redaction_flag_and_identity (parts : List Part) :
    ((PIIFilter.redact parts).wasRedacted = true ↔ replacementOccurred parts = true) ∧
    (noPatternMatches parts = true →
      PIIFilter.redact parts = ⟨parts, false, []⟩) := by
  constructor
  · rw [redact_wasRedacted_eq]
  · intro h
    show (⟨(redactList parts false []).1, (redactList parts false []).2.1,
      (redactList parts false []).2.2⟩ : RedactResult) = _
    rw [redactList_nomatch parts false [] h]

/-- Witness for C7: a message no pattern matches is returned unchanged with
a clear flag and no reasons. -/
theorem c7_redaction_flag_and_identity_witness :
    noPatternMatches [⟨some "no pii here", none⟩] = true ∧
    PIIFilter.redact [⟨some "no pii here", none⟩] =
      ⟨[⟨some "no pii here", none⟩], false, []⟩ :=
  ⟨by decide,
    (c7_redaction_flag_and_identity [⟨some "no pii here", none⟩]).2 (by decide)⟩

/-! ## C8: idempotence of redaction

The proof that a redacted text contains no further pattern match proceeds by
an induction over the global scan `scanRepl`: copied characters carry any
would-be match back to the input (where the scan already ruled it out), and
placeholder blocks admit no match because every pattern needs a character
(`@`, a digit, or `-`) that no placeholder contains, and no match can cross
a bracket.  Word boundaries at the seams are handled by the shape of the
patterns: each digit-style pattern starts and ends with a word character
under a `\b`, so a replacement can neither begin right after nor end right
before a word character of the surviving text. -/

/-- Wordness of an optional character (absent counts as non-word). -/
def wcOpt (q : Option Char) : Bool := (q.map isWordChar).getD false

/-- The head of `s` is a non-word character or absent. -/
def nonWordHead (s : List Char) : Bool := !wcOpt s.head?

/-- The union of the character classes of a token list: every character a
match can consume satisfies this. -/
def toksCharSet (toks : List RTok) (c : Char) : Bool :=
  toks.any fun tok =>
    match tok with
    | RTok.cls p _ _ => p c
    | RTok.wb => false

/-- No word-boundary token. -/
def noWb (toks : List RTok) : Bool :=
  toks.all fun tok =>
    match tok with
    | RTok.cls _ _ _ => true
    | RTok.wb => false

/-- Some class token must consume at least one character. -/
def hasMandatory (toks : List RTok) : Prop :=
  ∃ p lo hi, RTok.cls p lo hi ∈ toks ∧ 1 ≤ lo

theorem charRun_le_length (p : Char → Bool) (s : List Char) :
    charRun p s ≤ s.length := by
  induction s with
  | nil => simp [charRun]
  | cons c cs ih =>
      simp only [charRun, List.length_cons]
      split <;> omega

theorem mem_take_charRun (p : Char → Bool) (s : List Char) :
    ∀ k, k ≤ charRun p s → ∀ c ∈ s.take k, p c = true := by
  induction s with
  | nil => intro k _ c hc; simp at hc
  | cons a cs ih =>
      intro k hk c hc
      cases k with
      | zero => simp at hc
      | succ k' =>
          simp only [charRun] at hk
          by_cases hpa : p a = true
          · rw [if_pos hpa] at hk
            simp only [List.take_succ_cons, List.mem_cons] at hc
            rcases hc with rfl | hc
            · exact hpa
            · exact ih k' (by omega) c hc
          · rw [if_neg hpa] at hk
            omega

theorem charRun_ge (p : Char → Bool) (s : List Char) :
    ∀ k, k ≤ s.length → (∀ c ∈ s.take k, p c = true) → k ≤ charRun p s := by
  induction s with
  | nil =>
      intro k hk _
      simp only [List.length_nil, Nat.le_zero] at hk
      subst hk
      exact Nat.zero_le _
  | cons a cs ih =>
      intro k hk hall
      cases k with
      | zero => omega
      | succ k' =>
          have hpa : p a = true := hall a (by simp)
          simp only [charRun, if_pos hpa]
          have := ih k' (by simpa using hk)
            (fun c hc => hall c (by simp [List.take_succ_cons, hc]))
          omega

theorem findSome?_isSome_eq_any {α β : Type} (f : α → Option β) (l : List α) :
    (l.findSome? f).isSome = l.any fun a => (f a).isSome := by
  induction l with
  | nil => rfl
  | cons a l ih =>
      rw [List.findSome?_cons]
      cases h : f a <;> simp [h, ih]

/-- Left context after consuming `k` characters of `s` (the matcher's
update of `prev` in the class case). -/
def ctxAfter (q : Option Char) (s : List Char) (k : Nat) : Option Char :=
  if k = 0 then q else (s.take k).getLast?

/-- The upper repetition bound of a class token on `s`. -/
def clsTop (p : Char → Bool) (hi : Option Nat) (s : List Char) : Nat :=
  match hi with
  | some h => min (charRun p s) h
  | none => charRun p s

theorem matchToks_cls_eq (p : Char → Bool) (lo : Nat) (hi : Option Nat)
    (rest : List RTok) (q : Option Char) (s : List Char) :
    matchToks (RTok.cls p lo hi :: rest) q s =
      if lo ≤ clsTop p hi s then
        (List.range (clsTop p hi s + 1 - lo)).findSome? fun i =>
          (matchToks rest (ctxAfter q s (clsTop p hi s - i))
            (s.drop (clsTop p hi s - i))).map ((clsTop p hi s - i) + ·)
      else none := rfl

theorem matchToks_cls_isSome_iff (p : Char → Bool) (lo : Nat) (hi : Option Nat)
    (rest : List RTok) (q : Option Char) (s : List Char) :
    (matchToks (RTok.cls p lo hi :: rest) q s).isSome = true ↔
      ∃ k, lo ≤ k ∧ k ≤ clsTop p hi s ∧
        (matchToks rest (ctxAfter q s k) (s.drop k)).isSome = true := by
  rw [matchToks_cls_eq]
  split
  · rename_i hlo
    rw [findSome?_isSome_eq_any, List.any_eq_true]
    constructor
    · rintro ⟨i, hi_mem, hsome⟩
      rw [List.mem_range] at hi_mem
      refine ⟨clsTop p hi s - i, by omega, by omega, ?_⟩
      cases hmv : matchToks rest (ctxAfter q s (clsTop p hi s - i))
          (s.drop (clsTop p hi s - i)) with
      | none => rw [hmv] at hsome; simp at hsome
      | some m => simp
    · rintro ⟨k, hk1, hk2, hsome⟩
      refine ⟨clsTop p hi s - k, ?_, ?_⟩
      · rw [List.mem_range]; omega
      · have hkk : clsTop p hi s - (clsTop p hi s - k) = k := by omega
        rw [hkk]
        cases hmv : matchToks rest (ctxAfter q s k) (s.drop k) with
        | none => rw [hmv] at hsome; simp at hsome
        | some m => simp
  · rename_i hlo
    simp only [Option.isSome_none, Bool.false_eq_true, false_iff]
    rintro ⟨k, hk1, hk2, _⟩
    omega

theorem matchToks_cls_some (p : Char → Bool) (lo : Nat) (hi : Option Nat)
    (rest : List RTok) (q : Option Char) (s : List Char) (n : Nat)
    (h : matchToks (RTok.cls p lo hi :: rest) q s = some n) :
    ∃ k m, lo ≤ k ∧ k ≤ clsTop p hi s ∧
      matchToks rest (ctxAfter q s k) (s.drop k) = some m ∧ n = k + m := by
  rw [matchToks_cls_eq] at h
  split at h
  · obtain ⟨i, hmem, hf⟩ := List.exists_of_findSome?_eq_some h
    rw [List.mem_range] at hmem
    rename_i hlo
    obtain ⟨m, hm, rfl⟩ := Option.map_eq_some'.mp hf
    exact ⟨clsTop p hi s - i, m, by omega, by omega, hm, rfl⟩
  · exact absurd h (by simp)

theorem matchToks_wb_some (rest : List RTok) (q : Option Char) (s : List Char)
    (n : Nat) (h : matchToks (RTok.wb :: rest) q s = some n) :
    isBoundary q s = true ∧ matchToks rest q s = some n := by
  rw [show matchToks (RTok.wb :: rest) q s =
    (if isBoundary q s then matchToks rest q s else none) from rfl] at h
  split at h
  · exact ⟨by assumption, h⟩
  · exact absurd h (by simp)

theorem matchToks_le_length (toks : List RTok) :
    ∀ (q : Option Char) (s : List Char) (n : Nat),
      matchToks toks q s = some n → n ≤ s.length := by
  induction toks with
  | nil =>
      intro q s n h
      simp only [matchToks, Option.some.injEq] at h
      omega
  | cons tok rest ih =>
      intro q s n h
      cases tok with
      | wb => exact ih q s n (matchToks_wb_some rest q s n h).2
      | cls p lo hi =>
          obtain ⟨k, m, _, hk2, hm, rfl⟩ := matchToks_cls_some p lo hi rest q s n h
          have h1 := ih _ _ _ hm
          have h2 : k ≤ s.length :=
            le_trans hk2 (by
              cases hi with
              | none => exact charRun_le_length p s
              | some hh => exact le_trans (Nat.min_le_left _ _) (charRun_le_length p s))
          simp only [List.length_drop] at h1
          omega

theorem clsTop_le_charRun (p : Char → Bool) (hi : Option Nat) (s : List Char) :
    clsTop p hi s ≤ charRun p s := by
  cases hi with
  | none => exact le_refl _
  | some h => exact Nat.min_le_left _ _

theorem matchToks_consumed (toks : List RTok) :
    ∀ (q : Option Char) (s : List Char) (n : Nat),
      matchToks toks q s = some n →
      ∀ c ∈ s.take n, toksCharSet toks c = true := by
  induction toks with
  | nil =>
      intro q s n h c hc
      simp only [matchToks, Option.some.injEq] at h
      subst h
      simp at hc
  | cons tok rest ih =>
      intro q s n h c hc
      cases tok with
      | wb =>
          have := ih q s n (matchToks_wb_some rest q s n h).2 c hc
          simp only [toksCharSet, List.any_cons] at this ⊢
          simp [this]
      | cls p lo hi =>
          obtain ⟨k, m, _, hk2, hm, rfl⟩ := matchToks_cls_some p lo hi rest q s n h
          have hkrun : k ≤ charRun p s := le_trans hk2 (clsTop_le_charRun p hi s)
          rw [List.take_add] at hc
          rcases List.mem_append.mp hc with hc1 | hc1
          · have hp := mem_take_charRun p s k hkrun c hc1
            simp [toksCharSet, List.any_cons, hp]
          · have := ih _ _ _ hm c hc1
            simp only [toksCharSet, List.any_cons] at this ⊢
            simp [this]

theorem matchToks_pos (toks : List RTok) (hmand : hasMandatory toks) :
    ∀ (q : Option Char) (s : List Char) (n : Nat),
      matchToks toks q s = some n → 1 ≤ n := by
  induction toks with
  | nil =>
      obtain ⟨p, lo, hi, hmem, _⟩ := hmand
      simp at hmem
  | cons tok rest ih =>
      intro q s n h
      obtain ⟨p, lo, hi, hmem, hlo⟩ := hmand
      cases tok with
      | wb =>
          rcases List.mem_cons.mp hmem with heq | hmem'
          · exact absurd heq (by simp)
          · exact ih ⟨p, lo, hi, hmem', hlo⟩ q s n (matchToks_wb_some rest q s n h).2
      | cls p2 lo2 hi2 =>
          obtain ⟨k, m, hk1, _, hm, rfl⟩ := matchToks_cls_some p2 lo2 hi2 rest q s n h
          rcases List.mem_cons.mp hmem with heq | hmem'
          · injection heq with e1 e2 e3
            omega
          · have := ih ⟨p, lo, hi, hmem', hlo⟩ _ _ _ hm
            omega

theorem matchToks_none_of_nil (toks : List RTok) (hmand : hasMandatory toks)
    (q : Option Char) : matchToks toks q [] = none := by
  cases h : matchToks toks q [] with
  | none => rfl
  | some n =>
      have h1 := matchToks_pos toks hmand q [] n h
      have h2 := matchToks_le_length toks q [] n h
      simp at h2
      omega

theorem matchToks_req (toks : List RTok) (p : Char → Bool) (lo : Nat)
    (hi : Option Nat) (hmem : RTok.cls p lo hi ∈ toks) (hlo : 1 ≤ lo) :
    ∀ (q : Option Char) (s : List Char) (n : Nat),
      matchToks toks q s = some n → ∃ c ∈ s.take n, p c = true := by
  induction toks with
  | nil => simp at hmem
  | cons tok rest ih =>
      intro q s n h
      cases tok with
      | wb =>
          rcases List.mem_cons.mp hmem with heq | hmem'
          · exact absurd heq (by simp)
          · exact ih hmem' q s n (matchToks_wb_some rest q s n h).2
      | cls p2 lo2 hi2 =>
          obtain ⟨k, m, hk1, hk2, hm, rfl⟩ := matchToks_cls_some p2 lo2 hi2 rest q s n h
          rcases List.mem_cons.mp hmem with heq | hmem'
          · injection heq with e1 e2 e3
            subst e1; subst e2
            have hkpos : 1 ≤ k := by omega
            have hkrun : k ≤ charRun p s := le_trans hk2 (clsTop_le_charRun p hi2 s)
            have hklen : k ≤ s.length := le_trans hkrun (charRun_le_length p s)
            have hne : s.take k ≠ [] := by
              cases s with
              | nil => simp at hklen; omega
              | cons a as => cases k with
                | zero => omega
                | succ k' => simp [List.take_succ_cons]
            obtain ⟨c, hc⟩ := List.exists_mem_of_ne_nil _ hne
            refine ⟨c, ?_, mem_take_charRun p s k hkrun c hc⟩
            rw [List.take_add]
            exact List.mem_append.mpr (Or.inl hc)
          · obtain ⟨c, hc, hpc⟩ := ih hmem' _ _ _ hm
            refine ⟨c, ?_, hpc⟩
            rw [List.take_add]
            exact List.mem_append.mpr (Or.inr hc)

theorem findSome?_congr {α β : Type} (f g : α → Option β) (l : List α)
    (h : ∀ a ∈ l, f a = g a) : l.findSome? f = l.findSome? g := by
  induction l with
  | nil => rfl
  | cons a l ih =>
      rw [List.findSome?_cons, List.findSome?_cons, h a (by simp)]
      cases g a with
      | none => exact ih fun a ha => h a (by simp [ha])
      | some b => rfl

theorem charRun_append_ge (p : Char → Bool) (x z : List Char) :
    charRun p x ≤ charRun p (x ++ z) := by
  induction x with
  | nil => simp [charRun]
  | cons c cs ih =>
      rw [List.cons_append]
      simp only [charRun]
      split
      · exact Nat.succ_le_succ ih
      · exact Nat.zero_le _

theorem clsTop_append_ge (p : Char → Bool) (hi : Option Nat) (x z : List Char) :
    clsTop p hi x ≤ clsTop p hi (x ++ z) := by
  cases hi with
  | none => exact charRun_append_ge p x z
  | some h => exact min_le_min (charRun_append_ge p x z) (le_refl h)

theorem noWb_cons_cls (p : Char → Bool) (lo : Nat) (hi : Option Nat)
    (rest : List RTok) (h : noWb (RTok.cls p lo hi :: rest) = true) :
    noWb rest = true := by
  simpa [noWb] using h

theorem matchToks_noWb_ctx (toks : List RTok) :
    noWb toks = true →
    ∀ (q q' : Option Char) (s : List Char),
      matchToks toks q s = matchToks toks q' s := by
  induction toks with
  | nil => intro _ q q' s; rfl
  | cons tok rest ih =>
      intro hnw q q' s
      cases tok with
      | wb => simp [noWb] at hnw
      | cls p lo hi =>
          have hnw' := noWb_cons_cls p lo hi rest hnw
          rw [matchToks_cls_eq, matchToks_cls_eq]
          split


          · refine findSome?_congr _ _ _ fun i _ => ?_
            unfold ctxAfter
            by_cases hk : clsTop p hi s - i = 0
            · rw [if_pos hk, if_pos hk, ih hnw' q q' _]
            · rw [if_neg hk, if_neg hk]
          · rfl

theorem matchToks_cls_pos_ctx (p : Char → Bool) (lo : Nat) (hi : Option Nat)
    (rest : List RTok) (hlo : 1 ≤ lo) (q q' : Option Char) (s : List Char) :
    matchToks (RTok.cls p lo hi :: rest) q s =
      matchToks (RTok.cls p lo hi :: rest) q' s := by
  rw [matchToks_cls_eq, matchToks_cls_eq]
  split
  · refine findSome?_congr _ _ _ fun i hi_mem => ?_
    rw [List.mem_range] at hi_mem
    have hk : ¬(clsTop p hi s - i = 0) := by omega
    unfold ctxAfter
    rw [if_neg hk, if_neg hk]
  · rfl

theorem matchToks_noWb_extend (toks : List RTok) :
    noWb toks = true →
    ∀ (q : Option Char) (x z : List Char),
      (matchToks toks q x).isSome = true →
      (matchToks toks q (x ++ z)).isSome = true := by
  induction toks with
  | nil => intro _ q x z _; simp [matchToks]
  | cons tok rest ih =>
      intro hnw q x z h
      cases tok with
      | wb => simp [noWb] at hnw
      | cls p lo hi =>
          have hnw' := noWb_cons_cls p lo hi rest hnw
          obtain ⟨k, hk1, hk2, hrest⟩ := (matchToks_cls_isSome_iff p lo hi rest q x).mp h
          have hklen : k ≤ x.length :=
            le_trans hk2 (le_trans (clsTop_le_charRun p hi x) (charRun_le_length p x))
          refine (matchToks_cls_isSome_iff p lo hi rest q (x ++ z)).mpr
            ⟨k, hk1, le_trans hk2 (clsTop_append_ge p hi x z), ?_⟩
          have hdrop : (x ++ z).drop k = x.drop k ++ z :=
            List.drop_append_of_le_length hklen
          have hctx : ctxAfter q (x ++ z) k = ctxAfter q x k := by
            unfold ctxAfter
            by_cases hk0 : k = 0
            · rw [if_pos hk0, if_pos hk0]
            · rw [if_neg hk0, if_neg hk0, List.take_append_of_le_length hklen]
          rw [hdrop, hctx]
          exact ih hnw' _ _ z hrest

theorem matchToks_noWb_restrict (toks : List RTok) :
    noWb toks = true →
    ∀ (q : Option Char) (s : List Char) (n : Nat),
      matchToks toks q s = some n →
      (matchToks toks q (s.take n)).isSome = true := by
  induction toks with
  | nil =>
      intro _ q s n h
      simp only [matchToks, Option.some.injEq] at h
      subst h
      simp [matchToks]
  | cons tok rest ih =>
      intro hnw q s n h
      cases tok with
      | wb => simp [noWb] at hnw
      | cls p lo hi =>
          have hnw' := noWb_cons_cls p lo hi rest hnw
          obtain ⟨k, m, hk1, hk2, hm, rfl⟩ := matchToks_cls_some p lo hi rest q s n h
          have hkrun : k ≤ charRun p s := le_trans hk2 (clsTop_le_charRun p hi s)
          have hklen : k ≤ s.length := le_trans hkrun (charRun_le_length p s)
          have hlen : (s.take (k + m)).length = min (k + m) s.length := by
            simp [List.length_take]
          have hrun : k ≤ charRun p (s.take (k + m)) := by
            refine charRun_ge p _ k (by omega) fun c hc => ?_
            rw [List.take_take, Nat.min_eq_left (by omega)] at hc
            exact mem_take_charRun p s k hkrun c hc
          refine (matchToks_cls_isSome_iff p lo hi rest q (s.take (k + m))).mpr
            ⟨k, hk1, ?_, ?_⟩
          · cases hi with
            | none => exact hrun
            | some hh =>
                have : k ≤ hh := le_trans hk2 (Nat.min_le_right _ _)
                exact le_min hrun this
          · have hdrop : (s.take (k + m)).drop k = (s.drop k).take m := by
              rw [List.drop_take]
              congr 1
              omega
            have hctx : ctxAfter q (s.take (k + m)) k = ctxAfter q s k := by
              unfold ctxAfter
              by_cases hk0 : k = 0
              · rw [if_pos hk0, if_pos hk0]
              · rw [if_neg hk0, if_neg hk0, List.take_take,
                  Nat.min_eq_left (by omega)]
            rw [hdrop, hctx]
            exact ih hnw' _ _ _ hm

theorem getLast?_cons_or {α : Type} (c : α) (l : List α) :
    (c :: l).getLast? = (l.getLast? <|> some c) := by
  cases l with
  | nil => rfl
  | cons d l' =>
      have hne : (d :: l') ≠ ([] : List α) := by simp
      obtain ⟨x, hx⟩ := Option.isSome_iff_exists.mp (List.getLast?_isSome.mpr hne)
      rw [List.getLast?_cons_cons, hx]
      rfl

theorem take_ne_nil_of_pos (s : List Char) (k : Nat) (hk : 1 ≤ k)
    (hlen : 1 ≤ s.length) : s.take k ≠ [] := by
  cases s with
  | nil => simp at hlen
  | cons a as =>
      cases k with
      | zero => omega
      | succ k' => simp

theorem matchToks_trailing (front : List RTok) (p : Char → Bool) (lo : Nat)
    (hi : Option Nat) (hlo : 1 ≤ lo) :
    ∀ (q : Option Char) (s : List Char) (n : Nat),
      matchToks (front ++ [RTok.cls p lo hi, RTok.wb]) q s = some n →
      1 ≤ n ∧ ∃ d, (s.take n).getLast? = some d ∧ p d = true ∧
        isBoundary (some d) (s.drop n) = true := by
  induction front with
  | nil =>
      intro q s n h
      rw [List.nil_append] at h
      obtain ⟨k, m, hk1, hk2, hm, rfl⟩ :=
        matchToks_cls_some p lo hi [RTok.wb] q s n h
      obtain ⟨hb, hm'⟩ := matchToks_wb_some [] _ _ m hm
      have hm0 : m = 0 := by
        simpa [matchToks] using hm'.symm
      subst hm0
      have hkrun : k ≤ charRun p s := le_trans hk2 (clsTop_le_charRun p hi s)
      have hklen : k ≤ s.length := le_trans hkrun (charRun_le_length p s)
      have hk0 : ¬(k = 0) := by omega
      have hne : s.take k ≠ [] := take_ne_nil_of_pos s k (by omega) (by omega)
      obtain ⟨d, hd⟩ := Option.isSome_iff_exists.mp (List.getLast?_isSome.mpr hne)
      refine ⟨by omega, d, by simpa using hd, ?_, ?_⟩
      · exact mem_take_charRun p s k hkrun d (List.mem_of_mem_getLast? hd)
      · unfold ctxAfter at hb
        rw [if_neg hk0, hd] at hb
        simpa using hb
  | cons tok front' ih =>
      intro q s n h
      rw [List.cons_append] at h
      cases tok with
      | wb =>
          obtain ⟨hb, h'⟩ := matchToks_wb_some _ q s n h
          exact ih q s n h'
      | cls p2 lo2 hi2 =>
          obtain ⟨k, m, hk1, hk2, hm, rfl⟩ :=
            matchToks_cls_some p2 lo2 hi2 _ q s n h
          obtain ⟨hm1, d, hd, hpd, hbd⟩ := ih _ _ _ hm
          have hmlen : m ≤ (s.drop k).length := matchToks_le_length _ _ _ _ hm
          refine ⟨by omega, d, ?_, hpd, ?_⟩
          · rw [List.take_add, List.getLast?_append_of_ne_nil]
            · exact hd
            · refine take_ne_nil_of_pos _ m (by omega) ?_
              omega
          · have hdd : List.drop (k + m) s = (s.drop k).drop m := by
              rw [List.drop_drop, Nat.add_comm]
            rw [hdd]
            exact hbd

theorem head?_eq_of_take_eq (X Y : List Char) (n : Nat) (hn : 1 ≤ n)
    (hlen : 1 ≤ X.length) (h : X.take n = Y.take n) :
    X.head? = Y.head? := by
  cases X with
  | nil => simp at hlen
  | cons x X' =>
      cases Y with
      | nil =>
          cases n with
          | zero => omega
          | succ n' => simp at h
      | cons y Y' =>
          cases n with
          | zero => omega
          | succ n' =>
              simp only [List.take_succ_cons, List.cons.injEq] at h
              simp [h.1]

theorem matchToks_transfer (toks : List RTok) :
    ∀ (q : Option Char) (X Y : List Char) (n : Nat),
      matchToks toks q X = some n →
      X.take n = Y.take n →
      wcOpt (X.drop n).head? = wcOpt (Y.drop n).head? →
      (matchToks toks q Y).isSome = true := by
  induction toks with
  | nil => intro q X Y n _ _ _; simp [matchToks]
  | cons tok rest ih =>
      intro q X Y n h htake hword
      cases tok with
      | wb =>
          obtain ⟨hb, h'⟩ := matchToks_wb_some rest q X n h
          have hw : wcOpt X.head? = wcOpt Y.head? := by
            cases n with
            | zero => simpa using hword
            | succ n' =>
                have hlen : n' + 1 ≤ X.length := matchToks_le_length _ _ _ _ h'
                rw [head?_eq_of_take_eq X Y (n' + 1) (by omega) (by omega) htake]
          have hbY : isBoundary q Y = true := by
            unfold isBoundary at hb ⊢
            unfold wcOpt at hw
            rw [← hw]
            exact hb
          rw [show matchToks (RTok.wb :: rest) q Y =
            (if isBoundary q Y then matchToks rest q Y else none) from rfl,
            if_pos hbY]
          exact ih q X Y n h' htake hword
      | cls p lo hi =>
          obtain ⟨k, m, hk1, hk2, hm, rfl⟩ := matchToks_cls_some p lo hi rest q X n h
          have hkrun : k ≤ charRun p X := le_trans hk2 (clsTop_le_charRun p hi X)
          have hklen : k ≤ X.length := le_trans hkrun (charRun_le_length p X)
          have htakek : X.take k = Y.take k := by
            have h1 := congrArg (List.take k) htake
            simpa [List.take_take, Nat.min_eq_left (show k ≤ k + m by omega)]
              using h1
          have hYlen : k ≤ Y.length := by
            have h1 : (Y.take k).length = (X.take k).length := by rw [htakek]
            simp only [List.length_take] at h1
            omega
          have hYrun : k ≤ charRun p Y := by
            refine charRun_ge p Y k hYlen fun c hc => ?_
            rw [← htakek] at hc
            exact mem_take_charRun p X k hkrun c hc
          have hYtop : k ≤ clsTop p hi Y := by
            cases hi with
            | none => exact hYrun
            | some hh =>
                exact le_min hYrun (le_trans hk2 (Nat.min_le_right _ _))
          refine (matchToks_cls_isSome_iff p lo hi rest q Y).mpr ⟨k, hk1, hYtop, ?_⟩
          have hctx : ctxAfter q Y k = ctxAfter q X k := by
            unfold ctxAfter
            by_cases hk0 : k = 0
            · rw [if_pos hk0, if_pos hk0]
            · rw [if_neg hk0, if_neg hk0, htakek]
          have htake' : (X.drop k).take m = (Y.drop k).take m := by
            have h1 := congrArg (List.drop k) htake
            simpa [List.drop_take, Nat.add_sub_cancel_left] using h1
          have hword' : wcOpt ((X.drop k).drop m).head? =
              wcOpt ((Y.drop k).drop m).head? := by
            rw [List.drop_drop, List.drop_drop]
            exact hword
          rw [hctx]
          exact ih _ _ _ _ hm htake' hword'

/-- The left context seen by a scan of `v` after passing over `u` (with
outer context `q`). -/
def lastCtx (q : Option Char) (u : List Char) : Option Char := u.getLast? <|> q

theorem lastCtx_cons (q : Option Char) (c : Char) (l : List Char) :
    lastCtx q (c :: l) = lastCtx (some c) l := by
  unfold lastCtx
  rw [getLast?_cons_or]
  cases l.getLast? <;> rfl

theorem hasMatchAux_append_false (toks : List RTok) :
    ∀ (u : List Char) (q : Option Char) (v : List Char),
      (∀ (u1 : List Char) (c : Char) (u2 : List Char), u = u1 ++ c :: u2 →
        (matchToks toks (lastCtx q u1) (c :: (u2 ++ v))).isSome = false) →
      hasMatchAux toks (lastCtx q u) v = false →
      hasMatchAux toks q (u ++ v) = false := by
  intro u
  induction u with
  | nil =>
      intro q v _ hv
      simpa [lastCtx] using hv
  | cons c u' ih =>
      intro q v hsplit hv
      rw [List.cons_append,
        show hasMatchAux toks q (c :: (u' ++ v)) =
          ((matchToks toks q (c :: (u' ++ v))).isSome ||
            hasMatchAux toks (some c) (u' ++ v)) from rfl,
        Bool.or_eq_false_iff]
      constructor
      · have := hsplit [] c u' rfl
        simpa [lastCtx] using this
      · refine ih (some c) v ?_ ?_
        · intro u1 c' u2 he
          have := hsplit (c :: u1) c' u2 (by rw [he, List.cons_append])
          rwa [lastCtx_cons] at this
        · rwa [lastCtx_cons] at hv

theorem hasMatchAux_drop_clean (toks : List RTok) :
    ∀ (s : List Char) (q : Option Char), hasMatchAux toks q s = false →
      ∀ n, hasMatchAux toks (lastCtx q (s.take n)) (s.drop n) = false := by
  intro s
  induction s with
  | nil =>
      intro q h n
      simpa [lastCtx] using h
  | cons c cs ih =>
      intro q h n
      rw [show hasMatchAux toks q (c :: cs) =
        ((matchToks toks q (c :: cs)).isSome || hasMatchAux toks (some c) cs)
        from rfl, Bool.or_eq_false_iff] at h
      cases n with
      | zero =>
          simp only [List.take_zero, List.drop_zero]
          show hasMatchAux toks (lastCtx q []) (c :: cs) = false
          rw [show lastCtx q [] = q by simp [lastCtx]]
          rw [show hasMatchAux toks q (c :: cs) =
            ((matchToks toks q (c :: cs)).isSome || hasMatchAux toks (some c) cs)
            from rfl, Bool.or_eq_false_iff]
          exact h
      | succ n' =>
          simp only [List.take_succ_cons, List.drop_succ_cons]
          rw [lastCtx_cons]
          exact ih (some c) h.2 n'

/-- The conditions relating a pattern to a placeholder string: the
placeholder is bracketed, the pattern can consume neither bracket, and the
pattern has a mandatory class (its required character) no placeholder
character satisfies. -/
structure PhOK (toksK : List RTok) (ph : List Char) : Prop where
  head_lb : ph.head? = some '['
  last_rb : ph.getLast? = some ']'
  ok_lb : toksCharSet toksK '[' = false
  ok_rb : toksCharSet toksK ']' = false
  req : ∃ p lo hi, RTok.cls p lo hi ∈ toksK ∧ 1 ≤ lo ∧ ∀ c ∈ ph, p c = false

theorem noStart_in_ph (toksK : List RTok) (ph : List Char) (hph : PhOK toksK ph)
    (u1 : List Char) (c : Char) (u2 : List Char) (hsplit : ph = u1 ++ c :: u2)
    (q : Option Char) (v : List Char) :
    (matchToks toksK q (c :: (u2 ++ v))).isSome = false := by
  cases hex : matchToks toksK q (c :: (u2 ++ v)) with
  | none => rfl
  | some n =>
      exfalso
      obtain ⟨p, lo, hi, hmem, hlo, hnope⟩ := hph.req
      have hw : c :: (u2 ++ v) = (c :: u2) ++ v := by simp
      have hlastw : (c :: u2).getLast? = some ']' := by
        have := hph.last_rb
        rw [hsplit, List.getLast?_append_of_ne_nil _ (by simp)] at this
        exact this
      by_cases hge : (c :: u2).length ≤ n
      · have hmemrb : ']' ∈ ((c :: u2) ++ v).take n := by
          rw [List.take_append_eq_append_take,
            List.take_of_length_le (by omega)]
          exact List.mem_append.mpr (Or.inl (List.mem_of_mem_getLast? hlastw))
        have := matchToks_consumed toksK q (c :: (u2 ++ v)) n hex ']'
          (by rwa [hw])
        rw [hph.ok_rb] at this
        exact absurd this (by simp)
      · obtain ⟨ch, hch, hpch⟩ := matchToks_req toksK p lo hi hmem hlo q _ n hex
        rw [hw, List.take_append_of_le_length (by omega)] at hch
        have hchph : ch ∈ ph := by
          rw [hsplit]
          exact List.mem_append.mpr (Or.inr (List.mem_of_mem_take hch))
        rw [hnope ch hchph] at hpch
        exact absurd hpch (by simp)

theorem scanRepl_nil (toks : List RTok) (ph : List Char) (fuel : Nat)
    (prev : Option Char) : scanRepl toks ph fuel prev [] = [] := by
  cases fuel <;> rfl

theorem scanRepl_copy (toks : List RTok) (ph : List Char) (fuel : Nat)
    (prev : Option Char) (c : Char) (cs : List Char)
    (hm : matchToks toks prev (c :: cs) = none) :
    scanRepl toks ph (fuel + 1) prev (c :: cs) =
      c :: scanRepl toks ph fuel (some c) cs := by
  simp [scanRepl, hm]

theorem scanRepl_rep (toks : List RTok) (ph : List Char) (fuel : Nat)
    (prev : Option Char) (c : Char) (cs : List Char) (n : Nat)
    (hm : matchToks toks prev (c :: cs) = some n) (hn : 1 ≤ n) :
    scanRepl toks ph (fuel + 1) prev (c :: cs) =
      ph ++ scanRepl toks ph fuel (((c :: cs).take n).getLast? <|> prev)
        ((c :: cs).drop n) := by
  simp only [scanRepl, hm]
  rw [if_neg (by omega)]

theorem scanRepl_align (toksJ : List RTok) (ph : List Char)
    (hhd : ph.head? = some '[') (hmand : hasMandatory toksJ) :
    ∀ (fuel : Nat) (s : List Char) (prev : Option Char) (m : Nat),
      s.length ≤ fuel →
      '[' ∉ (scanRepl toksJ ph fuel prev s).take m →
      (scanRepl toksJ ph fuel prev s).take m = s.take m ∧
      ((scanRepl toksJ ph fuel prev s).get? m = some '[' →
        ((matchToks toksJ (lastCtx prev (s.take m)) (s.drop m)).isSome = true ∨
          s.get? m = some '[')) := by
  intro fuel
  induction fuel with
  | zero =>
      intro s prev m hlen _
      have hs : s = [] := List.length_eq_zero.mp (by omega)
      subst hs
      rw [scanRepl_nil]
      exact ⟨rfl, by simp⟩
  | succ fuel ih =>
      intro s prev m hlen hnotin
      cases s with
      | nil =>
          rw [scanRepl_nil] at hnotin ⊢
          exact ⟨rfl, by simp⟩
      | cons c cs =>
          cases hm : matchToks toksJ prev (c :: cs) with
          | none =>
              rw [scanRepl_copy toksJ ph fuel prev c cs hm] at hnotin ⊢
              cases m with
              | zero =>
                  refine ⟨rfl, fun h0 => ?_⟩
                  simp only [List.get?_cons_zero, Option.some.injEq] at h0
                  right
                  simp [h0]
              | succ m' =>
                  rw [List.take_succ_cons] at hnotin ⊢
                  simp only [List.mem_cons, not_or] at hnotin
                  obtain ⟨ihtake, ihget⟩ :=
                    ih cs (some c) m' (by simpa using hlen) hnotin.2
                  refine ⟨by rw [ihtake, List.take_succ_cons], fun h0 => ?_⟩
                  rw [List.get?_cons_succ] at h0
                  rw [List.take_succ_cons, lastCtx_cons, List.drop_succ_cons,
                    List.get?_cons_succ]
                  exact ihget h0
          | some n =>
              have hn1 : 1 ≤ n := matchToks_pos toksJ hmand prev (c :: cs) n hm
              rw [scanRepl_rep toksJ ph fuel prev c cs n hm hn1] at hnotin ⊢
              obtain ⟨ph0, ph', rfl⟩ : ∃ ph0 ph', ph = ph0 :: ph' := by
                cases ph with
                | nil => simp at hhd
                | cons a b => exact ⟨a, b, rfl⟩
              have hph0 : ph0 = '[' := by simpa using hhd
              subst hph0
              cases m with
              | zero =>
                  refine ⟨rfl, fun _ => Or.inl ?_⟩
                  simp only [List.take_zero, List.drop_zero]
                  rw [show lastCtx prev [] = prev by simp [lastCtx], hm]
                  rfl
              | succ m' =>
                  exfalso
                  apply hnotin
                  rw [List.cons_append, List.take_succ_cons]
                  exact List.mem_cons_self _ _

/-- The shape shared by the phone, employee-id, card and project regexes:
a leading `\b`, a mandatory first class, a middle, a mandatory last class,
and a trailing `\b`. -/
structure WordToks where
  firstP : Char → Bool
  firstLo : Nat
  firstHi : Option Nat
  mid : List RTok
  lastP : Char → Bool
  lastLo : Nat
  lastHi : Option Nat

/-- The token list of a word-shaped pattern. -/
def WordToks.toks (K : WordToks) : List RTok :=
  RTok.wb :: RTok.cls K.firstP K.firstLo K.firstHi ::
    (K.mid ++ [RTok.cls K.lastP K.lastLo K.lastHi, RTok.wb])

/-- Well-formedness of a word-shaped pattern: the first and last classes
are mandatory and consist of word characters. -/
structure WordToksOK (K : WordToks) : Prop where
  firstLo_pos : 1 ≤ K.firstLo
  lastLo_pos : 1 ≤ K.lastLo
  firstP_word : ∀ c, K.firstP c = true → isWordChar c = true
  lastP_word : ∀ c, K.lastP c = true → isWordChar c = true

theorem wordToks_mand (K : WordToks) (hK : WordToksOK K) :
    hasMandatory K.toks :=
  ⟨K.firstP, K.firstLo, K.firstHi, by simp [WordToks.toks], hK.firstLo_pos⟩

theorem wordToks_trailing (K : WordToks) (hK : WordToksOK K)
    (q : Option Char) (s : List Char) (n : Nat)
    (h : matchToks K.toks q s = some n) :
    1 ≤ n ∧ ∃ d, (s.take n).getLast? = some d ∧ K.lastP d = true ∧
      isBoundary (some d) (s.drop n) = true := by
  have hdec : K.toks = (RTok.wb :: RTok.cls K.firstP K.firstLo K.firstHi ::
      K.mid) ++ [RTok.cls K.lastP K.lastLo K.lastHi, RTok.wb] := rfl
  rw [hdec] at h
  exact matchToks_trailing _ K.lastP K.lastLo K.lastHi hK.lastLo_pos q s n h

theorem wordToks_head (K : WordToks) (hK : WordToksOK K) (q : Option Char)
    (c : Char) (cs : List Char) (n : Nat)
    (h : matchToks K.toks q (c :: cs) = some n) :
    isBoundary q (c :: cs) = true ∧ K.firstP c = true := by
  obtain ⟨hb, h'⟩ := matchToks_wb_some _ q (c :: cs) n h
  obtain ⟨k, m, hk1, hk2, hm, rfl⟩ := matchToks_cls_some _ _ _ _ q (c :: cs) _ h'
  have hkrun : k ≤ charRun K.firstP (c :: cs) :=
    le_trans hk2 (clsTop_le_charRun _ _ _)
  have hpos : 1 ≤ charRun K.firstP (c :: cs) := by
    have := hK.firstLo_pos
    omega
  have hpc : K.firstP c = true := by
    by_contra hno
    rw [show charRun K.firstP (c :: cs) =
      (if K.firstP c then charRun K.firstP cs + 1 else 0) from rfl,
      if_neg hno] at hpos
    omega
  exact ⟨hb, hpc⟩

theorem wordToks_ctx_wordEq (K : WordToks) (hK : WordToksOK K)
    (q q' : Option Char) (hqq : wcOpt q = wcOpt q') (s : List Char) :
    matchToks K.toks q s = matchToks K.toks q' s := by
  have hb : isBoundary q s = isBoundary q' s := by
    unfold isBoundary
    unfold wcOpt at hqq
    rw [hqq]
  show (if isBoundary q s then matchToks _ q s else none) =
    (if isBoundary q' s then matchToks _ q' s else none)
  rw [hb]
  by_cases hbb : isBoundary q' s = true
  · rw [if_pos hbb, if_pos hbb]
    exact matchToks_cls_pos_ctx K.firstP K.firstLo K.firstHi _
      hK.firstLo_pos q q' s
  · rw [if_neg hbb, if_neg hbb]

theorem noWb_head_transfer (toksK : List RTok) (hnw : noWb toksK = true)
    (hok : toksCharSet toksK '[' = false)
    (toksJ : List RTok) (ph : List Char) (hhd : ph.head? = some '[')
    (hmand : hasMandatory toksJ)
    (fuel : Nat) (s : List Char) (prev prevO : Option Char)
    (hlen : s.length ≤ fuel)
    (hOm : (matchToks toksK prevO (scanRepl toksJ ph fuel prev s)).isSome = true) :
    (matchToks toksK prev s).isSome = true := by
  obtain ⟨n, hOn⟩ := Option.isSome_iff_exists.mp hOm
  have hfree : '[' ∉ (scanRepl toksJ ph fuel prev s).take n := by
    intro hmem
    have := matchToks_consumed toksK prevO _ n hOn '[' hmem
    rw [hok] at this
    exact absurd this (by simp)
  have halign := scanRepl_align toksJ ph hhd hmand fuel s prev n hlen hfree
  have h1 := matchToks_noWb_restrict toksK hnw prevO _ n hOn
  rw [halign.1] at h1
  have h2 := matchToks_noWb_extend toksK hnw prevO (s.take n) (s.drop n) h1
  rw [List.take_append_drop] at h2
  rwa [matchToks_noWb_ctx toksK hnw prevO prev s] at h2

theorem head?_drop_eq_get? (l : List Char) (n : Nat) :
    (l.drop n).head? = l.get? n := by
  rw [List.head?_drop, List.get?_eq_getElem?]

theorem take_succ_get? (l : List Char) (n : Nat) :
    l.take (n + 1) = l.take n ++ (l.get? n).toList := by
  rw [List.take_succ, List.get?_eq_getElem?]

theorem word_head_transfer (K : WordToks) (hK : WordToksOK K)
    (hokK : toksCharSet K.toks '[' = false)
    (J : WordToks) (hJ : WordToksOK J) (ph : List Char)
    (hhd : ph.head? = some '[')
    (fuel : Nat) (s : List Char) (prev prevO : Option Char)
    (hlen : s.length ≤ fuel)
    (hctx : wcOpt prevO = wcOpt prev)
    (hOm : (matchToks K.toks prevO (scanRepl J.toks ph fuel prev s)).isSome = true) :
    (matchToks K.toks prev s).isSome = true := by
  obtain ⟨n, hOn⟩ := Option.isSome_iff_exists.mp hOm
  obtain ⟨hn1, d, hdlast, hdp, _⟩ := wordToks_trailing K hK prevO _ n hOn
  have hmandJ : hasMandatory J.toks := wordToks_mand J hJ
  have hfree : '[' ∉ (scanRepl J.toks ph fuel prev s).take n := by
    intro hmem
    have := matchToks_consumed K.toks prevO _ n hOn '[' hmem
    rw [hokK] at this
    exact absurd this (by simp)
  have halign := scanRepl_align J.toks ph hhd hmandJ fuel s prev n hlen hfree
  have hOlen : n ≤ (scanRepl J.toks ph fuel prev s).length :=
    matchToks_le_length K.toks prevO _ n hOn
  have hslen : n ≤ s.length := by
    have h1 : ((scanRepl J.toks ph fuel prev s).take n).length =
        (s.take n).length := by rw [halign.1]
    simp only [List.length_take] at h1
    omega
  have hword : wcOpt ((scanRepl J.toks ph fuel prev s).drop n).head? =
      wcOpt (s.drop n).head? := by
    rw [head?_drop_eq_get?, head?_drop_eq_get?]
    cases hOg : (scanRepl J.toks ph fuel prev s).get? n with
    | some ch =>
        by_cases hlb : ch = '['
        · subst hlb
          rcases halign.2 hOg with hJm | hsg
          · exfalso
            obtain ⟨nJ, hJn⟩ := Option.isSome_iff_exists.mp hJm
            have hnJ1 : 1 ≤ nJ := matchToks_pos J.toks hmandJ _ _ nJ hJn
            have hnJlen : nJ ≤ (s.drop n).length :=
              matchToks_le_length J.toks _ _ nJ hJn
            cases hdrop : s.drop n with
            | nil => rw [hdrop] at hnJlen; simp at hnJlen; omega
            | cons e es =>
                rw [hdrop] at hJn
                obtain ⟨hbJ, hpe⟩ := wordToks_head J hJ _ e es nJ hJn
                have hsd : (s.take n).getLast? = some d := by
                  rw [← halign.1]; exact hdlast
                have hctxd : lastCtx prev (s.take n) = some d := by
                  unfold lastCtx
                  rw [hsd]
                  rfl
                rw [hctxd] at hbJ
                unfold isBoundary at hbJ
                have hdw : isWordChar d = true := hK.lastP_word d hdp
                have hew : isWordChar e = true := hJ.firstP_word e hpe
                simp [wcOpt, hdw, hew] at hbJ
          · rw [hsg]
        · have hfree2 : '[' ∉ (scanRepl J.toks ph fuel prev s).take (n + 1) := by
            rw [take_succ_get?, hOg]
            intro hmem
            rcases List.mem_append.mp hmem with h1 | h1
            · exact hfree h1
            · simp only [Option.toList_some, List.mem_singleton] at h1
              exact hlb h1.symm
          have halign2 := scanRepl_align J.toks ph hhd hmandJ fuel s prev (n + 1)
            hlen hfree2
          have hgeq : (scanRepl J.toks ph fuel prev s).get? n = s.get? n := by
            have h1 : ((scanRepl J.toks ph fuel prev s).take (n + 1)).get? n =
                (s.take (n + 1)).get? n := by rw [halign2.1]
            rwa [List.get?_take (Nat.lt_succ_self n),
              List.get?_take (Nat.lt_succ_self n)] at h1
          rw [← hgeq, hOg]
    | none =>
        have hOfull : (scanRepl J.toks ph fuel prev s).length ≤ n :=
          List.get?_eq_none.mp hOg
        have hOexact : (scanRepl J.toks ph fuel prev s).length = n := by omega
        have hfree2 : '[' ∉ (scanRepl J.toks ph fuel prev s).take (n + 1) := by
          rw [List.take_of_length_le (by omega)]
          rw [List.take_of_length_le (by omega)] at hfree
          exact hfree
        have halign2 := scanRepl_align J.toks ph hhd hmandJ fuel s prev (n + 1)
          hlen hfree2
        have hlen2 : ((scanRepl J.toks ph fuel prev s).take (n + 1)).length =
            (s.take (n + 1)).length := by rw [halign2.1]
        simp only [List.length_take] at hlen2
        have hsfull : s.length = n := by omega
        have hsg : s.get? n = none := List.get?_eq_none.mpr (by omega)
        rw [hsg]
  have htrans := matchToks_transfer K.toks prevO _ s n hOn halign.1 hword
  rwa [wordToks_ctx_wordEq K hK prevO prev hctx s] at htrans

theorem word_head_transfer_extend (K : WordToks) (hK : WordToksOK K)
    (J : WordToks) (hJ : WordToksOK J) (ph : List Char)
    (fuel : Nat) (s : List Char) (prev prevO : Option Char)
    (hlen : s.length ≤ fuel)
    (hctx2 : nonWordHead s = true)
    (hOm : (matchToks K.toks prevO (scanRepl J.toks ph fuel prev s)).isSome = true) :
    False := by
  obtain ⟨n, hOn⟩ := Option.isSome_iff_exists.mp hOm
  cases s with
  | nil =>
      rw [scanRepl_nil] at hOn
      rw [matchToks_none_of_nil K.toks (wordToks_mand K hK) prevO] at hOn
      exact absurd hOn (by simp)
  | cons c cs =>
      cases fuel with
      | zero => simp at hlen
      | succ fuel' =>
          cases hm : matchToks J.toks prev (c :: cs) with
          | none =>
              rw [scanRepl_copy _ _ _ _ _ _ hm] at hOn
              obtain ⟨_, hpc⟩ := wordToks_head K hK prevO c _ n hOn
              have : isWordChar c = true := hK.firstP_word c hpc
              simp [nonWordHead, wcOpt, this] at hctx2
          | some nJ =>
              have hnJ1 : 1 ≤ nJ :=
                matchToks_pos J.toks (wordToks_mand J hJ) prev _ nJ hm
              obtain ⟨hbJ, hpcJ⟩ := wordToks_head J hJ prev c cs nJ hm
              have : isWordChar c = true := hJ.firstP_word c hpcJ
              simp [nonWordHead, wcOpt, this] at hctx2

theorem hasMatchAux_cons (toks : List RTok) (q : Option Char) (c : Char)
    (cs : List Char) :
    hasMatchAux toks q (c :: cs) =
      ((matchToks toks q (c :: cs)).isSome || hasMatchAux toks (some c) cs) := rfl

theorem hasMatchAux_nil_false (toks : List RTok) (hmand : hasMandatory toks)
    (q : Option Char) : hasMatchAux toks q [] = false := by
  show (matchToks toks q []).isSome = false
  rw [matchToks_none_of_nil toks hmand q]
  rfl

theorem emailToks_mand : hasMandatory emailToks :=
  ⟨emailLocalChar, 1, none, by simp [emailToks], le_refl 1⟩

theorem emailToks_noWb : noWb emailToks = true := rfl

/-- Clean input stays clean for the email pattern through any replacing
scan with a bracketed placeholder. -/
theorem masterPreserveEmail (toksJ : List RTok) (ph : List Char)
    (hmand : hasMandatory toksJ) (hph : PhOK emailToks ph) :
    ∀ (fuel : Nat) (s : List Char) (prev prevO : Option Char),
      s.length ≤ fuel →
      hasMatchAux emailToks prev s = false →
      hasMatchAux emailToks prevO (scanRepl toksJ ph fuel prev s) = false := by
  intro fuel
  induction fuel with
  | zero =>
      intro s prev prevO hlen _
      have hs : s = [] := List.length_eq_zero.mp (by omega)
      subst hs
      rw [scanRepl_nil]
      exact hasMatchAux_nil_false emailToks emailToks_mand prevO
  | succ fuel ih =>
      intro s prev prevO hlen hclean
      cases s with
      | nil =>
          rw [scanRepl_nil]
          exact hasMatchAux_nil_false emailToks emailToks_mand prevO
      | cons c cs =>
          rw [hasMatchAux_cons, Bool.or_eq_false_iff] at hclean
          cases hm : matchToks toksJ prev (c :: cs) with
          | none =>
              rw [scanRepl_copy _ _ _ _ _ _ hm, hasMatchAux_cons,
                Bool.or_eq_false_iff]
              constructor
              · cases hx : (matchToks emailToks prevO
                    (c :: scanRepl toksJ ph fuel (some c) cs)).isSome with
                | false => rfl
                | true =>
                    exfalso
                    have hx2 : (matchToks emailToks prevO
                        (scanRepl toksJ ph (fuel + 1) prev (c :: cs))).isSome = true := by
                      rwa [scanRepl_copy _ _ _ _ _ _ hm]
                    have := noWb_head_transfer emailToks emailToks_noWb hph.ok_lb
                      toksJ ph hph.head_lb hmand (fuel + 1) (c :: cs) prev prevO
                      hlen hx2
                    rw [hclean.1] at this
                    exact absurd this (by simp)
              · exact ih cs (some c) (some c) (by simpa using hlen) hclean.2
          | some n =>
              have hn1 : 1 ≤ n := matchToks_pos toksJ hmand prev _ n hm
              rw [scanRepl_rep _ _ _ _ _ _ n hm hn1]
              refine hasMatchAux_append_false emailToks ph prevO _ ?_ ?_
              · intro u1 ch u2 hsplit
                exact noStart_in_ph emailToks ph hph u1 ch u2 hsplit _ _
              · have hcleandrop := hasMatchAux_drop_clean emailToks (c :: cs) prev
                  (by rw [hasMatchAux_cons, Bool.or_eq_false_iff]; exact hclean) n
                have hfuel : ((c :: cs).drop n).length ≤ fuel := by
                  simp only [List.length_drop, List.length_cons] at *
                  omega
                exact ih ((c :: cs).drop n) (lastCtx prev ((c :: cs).take n))
                  (lastCtx prevO ph) hfuel hcleandrop

/-- The email stage's own output is clean for the email pattern. -/
theorem masterSelfEmail (ph : List Char) (hph : PhOK emailToks ph) :
    ∀ (fuel : Nat) (s : List Char) (prev prevO : Option Char),
      s.length ≤ fuel →
      hasMatchAux emailToks prevO (scanRepl emailToks ph fuel prev s) = false := by
  intro fuel
  induction fuel with
  | zero =>
      intro s prev prevO hlen
      have hs : s = [] := List.length_eq_zero.mp (by omega)
      subst hs
      rw [scanRepl_nil]
      exact hasMatchAux_nil_false emailToks emailToks_mand prevO
  | succ fuel ih =>
      intro s prev prevO hlen
      cases s with
      | nil =>
          rw [scanRepl_nil]
          exact hasMatchAux_nil_false emailToks emailToks_mand prevO
      | cons c cs =>
          cases hm : matchToks emailToks prev (c :: cs) with
          | none =>
              rw [scanRepl_copy _ _ _ _ _ _ hm, hasMatchAux_cons,
                Bool.or_eq_false_iff]
              constructor
              · cases hx : (matchToks emailToks prevO
                    (c :: scanRepl emailToks ph fuel (some c) cs)).isSome with
                | false => rfl
                | true =>
                    exfalso
                    have hx2 : (matchToks emailToks prevO
                        (scanRepl emailToks ph (fuel + 1) prev (c :: cs))).isSome = true := by
                      rwa [scanRepl_copy _ _ _ _ _ _ hm]
                    have := noWb_head_transfer emailToks emailToks_noWb hph.ok_lb
                      emailToks ph hph.head_lb emailToks_mand (fuel + 1) (c :: cs)
                      prev prevO hlen hx2
                    rw [hm] at this
                    exact absurd this (by simp)
              · exact ih cs (some c) (some c) (by simpa using hlen)
          | some n =>
              have hn1 : 1 ≤ n := matchToks_pos emailToks emailToks_mand prev _ n hm
              rw [scanRepl_rep _ _ _ _ _ _ n hm hn1]
              refine hasMatchAux_append_false emailToks ph prevO _ ?_ ?_
              · intro u1 ch u2 hsplit
                exact noStart_in_ph emailToks ph hph u1 ch u2 hsplit _ _
              · have hfuel : ((c :: cs).drop n).length ≤ fuel := by
                  simp only [List.length_drop, List.length_cons] at *
                  omega
                exact ih ((c :: cs).drop n) (lastCtx prev ((c :: cs).take n))
                  (lastCtx prevO ph) hfuel

theorem nonWordHead_of_bd (d : Char) (hdw : isWordChar d = true)
    (s : List Char) (hbd : isBoundary (some d) s = true) :
    nonWordHead s = true := by
  unfold isBoundary at hbd
  unfold nonWordHead wcOpt
  cases hh : s.head? with
  | none => rfl
  | some e =>
      rw [hh] at hbd
      simp only [Option.map_some', Option.getD_some, hdw] at hbd
      simp only [hh, Option.map_some', Option.getD_some]
      cases he : isWordChar e with
      | false => rfl
      | true => rw [he] at hbd; exact absurd hbd (by decide)

/-- Clean input stays clean for a word-shaped pattern through a replacing
scan by another word-shaped pattern, given a context agreement (equal left
word-ness, or a non-word head). -/
theorem masterPreserveWord (K : WordToks) (hK : WordToksOK K)
    (J : WordToks) (hJ : WordToksOK J) (ph : List Char) (hph : PhOK K.toks ph) :
    ∀ (fuel : Nat) (s : List Char) (prev prevO : Option Char),
      s.length ≤ fuel →
      (wcOpt prevO = wcOpt prev ∨ nonWordHead s = true) →
      hasMatchAux K.toks prev s = false →
      hasMatchAux K.toks prevO (scanRepl J.toks ph fuel prev s) = false := by
  intro fuel
  induction fuel with
  | zero =>
      intro s prev prevO hlen _ _
      have hs : s = [] := List.length_eq_zero.mp (by omega)
      subst hs
      rw [scanRepl_nil]
      exact hasMatchAux_nil_false K.toks (wordToks_mand K hK) prevO
  | succ fuel ih =>
      intro s prev prevO hlen hctx hclean
      cases s with
      | nil =>
          rw [scanRepl_nil]
          exact hasMatchAux_nil_false K.toks (wordToks_mand K hK) prevO
      | cons c cs =>
          rw [hasMatchAux_cons, Bool.or_eq_false_iff] at hclean
          cases hm : matchToks J.toks prev (c :: cs) with
          | none =>
              rw [scanRepl_copy _ _ _ _ _ _ hm, hasMatchAux_cons,
                Bool.or_eq_false_iff]
              constructor
              · cases hx : (matchToks K.toks prevO
                    (c :: scanRepl J.toks ph fuel (some c) cs)).isSome with
                | false => rfl
                | true =>
                    exfalso
                    have hx2 : (matchToks K.toks prevO
                        (scanRepl J.toks ph (fuel + 1) prev (c :: cs))).isSome = true := by
                      rwa [scanRepl_copy _ _ _ _ _ _ hm]
                    rcases hctx with h | h
                    · have := word_head_transfer K hK hph.ok_lb J hJ ph
                        hph.head_lb (fuel + 1) (c :: cs) prev prevO hlen h hx2
                      rw [hclean.1] at this
                      exact absurd this (by simp)
                    · exact word_head_transfer_extend K hK J hJ ph (fuel + 1)
                        (c :: cs) prev prevO hlen h hx2
              · exact ih cs (some c) (some c) (by simpa using hlen)
                  (Or.inl rfl) hclean.2
          | some n =>
              have hn1 : 1 ≤ n := matchToks_pos J.toks (wordToks_mand J hJ) prev _ n hm
              rw [scanRepl_rep _ _ _ _ _ _ n hm hn1]
              refine hasMatchAux_append_false K.toks ph prevO _ ?_ ?_
              · intro u1 ch u2 hsplit
                exact noStart_in_ph K.toks ph hph u1 ch u2 hsplit _ _
              · have hcleandrop := hasMatchAux_drop_clean K.toks (c :: cs) prev
                  (by rw [hasMatchAux_cons, Bool.or_eq_false_iff]; exact hclean) n
                have hfuel : ((c :: cs).drop n).length ≤ fuel := by
                  simp only [List.length_drop, List.length_cons] at *
                  omega
                obtain ⟨_, d, _, hdp, hbd⟩ := wordToks_trailing J hJ prev (c :: cs) n hm
                have hctx2 : nonWordHead ((c :: cs).drop n) = true :=
                  nonWordHead_of_bd d (hJ.lastP_word d hdp) _ hbd
                exact ih ((c :: cs).drop n) (lastCtx prev ((c :: cs).take n))
                  (lastCtx prevO ph) hfuel (Or.inr hctx2) hcleandrop

/-- A word-shaped stage's own output is clean for its own pattern, given
the context agreement. -/
theorem masterSelfWord (K : WordToks) (hK : WordToksOK K)
    (ph : List Char) (hph : PhOK K.toks ph) :
    ∀ (fuel : Nat) (s : List Char) (prev prevO : Option Char),
      s.length ≤ fuel →
      (wcOpt prevO = wcOpt prev ∨ nonWordHead s = true) →
      hasMatchAux K.toks prevO (scanRepl K.toks ph fuel prev s) = false := by
  intro fuel
  induction fuel with
  | zero =>
      intro s prev prevO hlen _
      have hs : s = [] := List.length_eq_zero.mp (by omega)
      subst hs
      rw [scanRepl_nil]
      exact hasMatchAux_nil_false K.toks (wordToks_mand K hK) prevO
  | succ fuel ih =>
      intro s prev prevO hlen hctx
      cases s with
      | nil =>
          rw [scanRepl_nil]
          exact hasMatchAux_nil_false K.toks (wordToks_mand K hK) prevO
      | cons c cs =>
          cases hm : matchToks K.toks prev (c :: cs) with
          | none =>
              rw [scanRepl_copy _ _ _ _ _ _ hm, hasMatchAux_cons,
                Bool.or_eq_false_iff]
              constructor
              · cases hx : (matchToks K.toks prevO
                    (c :: scanRepl K.toks ph fuel (some c) cs)).isSome with
                | false => rfl
                | true =>
                    exfalso
                    have hx2 : (matchToks K.toks prevO
                        (scanRepl K.toks ph (fuel + 1) prev (c :: cs))).isSome = true := by
                      rwa [scanRepl_copy _ _ _ _ _ _ hm]
                    rcases hctx with h | h
                    · have := word_head_transfer K hK hph.ok_lb K hK ph
                        hph.head_lb (fuel + 1) (c :: cs) prev prevO hlen h hx2
                      rw [hm] at this
                      exact absurd this (by simp)
                    · exact word_head_transfer_extend K hK K hK ph (fuel + 1)
                        (c :: cs) prev prevO hlen h hx2
              · exact ih cs (some c) (some c) (by simpa using hlen) (Or.inl rfl)
          | some n =>
              have hn1 : 1 ≤ n := matchToks_pos K.toks (wordToks_mand K hK) prev _ n hm
              rw [scanRepl_rep _ _ _ _ _ _ n hm hn1]
              refine hasMatchAux_append_false K.toks ph prevO _ ?_ ?_
              · intro u1 ch u2 hsplit
                exact noStart_in_ph K.toks ph hph u1 ch u2 hsplit _ _
              · have hfuel : ((c :: cs).drop n).length ≤ fuel := by
                  simp only [List.length_drop, List.length_cons] at *
                  omega
                obtain ⟨_, d, _, hdp, hbd⟩ := wordToks_trailing K hK prev (c :: cs) n hm
                have hctx2 : nonWordHead ((c :: cs).drop n) = true :=
                  nonWordHead_of_bd d (hK.lastP_word d hdp) _ hbd
                exact ih ((c :: cs).drop n) (lastCtx prev ((c :: cs).take n))
                  (lastCtx prevO ph) hfuel (Or.inr hctx2)

/-! ### The four word-shaped patterns as `WordToks` instances -/

theorem asciiDigit_word (c : Char) (h : asciiDigit c = true) :
    isWordChar c = true := by
  unfold asciiDigit at h
  simp [isWordChar, h]

theorem upperOrDigit_word (c : Char) (h : upperOrDigit c = true) :
    isWordChar c = true := by
  unfold upperOrDigit at h
  rw [Bool.or_eq_true] at h
  rcases h with h | h <;> simp [isWordChar, h]

/-- `phoneToks` in word shape. -/
def phoneW : WordToks :=
  ⟨asciiDigit, 3, some 3,
    [RTok.cls phoneSep 0 (some 1), RTok.cls asciiDigit 3 (some 3),
      RTok.cls phoneSep 0 (some 1)],
    asciiDigit, 4, some 4⟩

theorem phoneW_toks : phoneW.toks = phoneToks := rfl

theorem phoneW_ok : WordToksOK phoneW :=
  ⟨by decide, by decide, asciiDigit_word, asciiDigit_word⟩

/-- `empToks` in word shape. -/
def empW : WordToks :=
  ⟨(fun x => x = 'E'), 1, some 1,
    [RTok.lit 'M', RTok.lit 'P', RTok.lit '-'],
    asciiDigit, 5, none⟩

theorem empW_toks : empW.toks = empToks := rfl

theorem empW_ok : WordToksOK empW := by
  refine ⟨by decide, by decide, ?_, asciiDigit_word⟩
  intro c h
  have hc : c = 'E' := of_decide_eq_true h
  subst hc
  decide

/-- `cardToks` in word shape. -/
def cardW : WordToks :=
  ⟨asciiDigit, 4, some 4,
    [RTok.cls cardSep 0 (some 1), RTok.cls asciiDigit 4 (some 4),
      RTok.cls cardSep 0 (some 1), RTok.cls asciiDigit 4 (some 4),
      RTok.cls cardSep 0 (some 1)],
    asciiDigit, 4, some 4⟩

theorem cardW_toks : cardW.toks = cardToks := rfl

theorem cardW_ok : WordToksOK cardW :=
  ⟨by decide, by decide, asciiDigit_word, asciiDigit_word⟩

/-- `projToks` in word shape. -/
def projW : WordToks :=
  ⟨(fun x => x = 'P'), 1, some 1,
    [RTok.lit 'R', RTok.lit 'O', RTok.lit 'J', RTok.lit 'E', RTok.lit 'C',
      RTok.lit 'T', RTok.lit '-'],
    upperOrDigit, 1, none⟩

theorem projW_toks : projW.toks = projToks := rfl

theorem projW_ok : WordToksOK projW := by
  refine ⟨by decide, by decide, ?_, upperOrDigit_word⟩
  intro c h
  have hc : c = 'P' := of_decide_eq_true h
  subst hc
  decide

/-! ### Pattern–placeholder compatibility instances -/

/-- Packaged constructor for `PhOK`. -/
theorem phokOf (toksK : List RTok) (p : Char → Bool) (lo : Nat) (hi : Option Nat)
    (hmem : RTok.cls p lo hi ∈ toksK) (hlo : 1 ≤ lo)
    (hlb : toksCharSet toksK '[' = false) (hrb : toksCharSet toksK ']' = false)
    (ph : List Char) (h1 : ph.head? = some '[') (h2 : ph.getLast? = some ']')
    (h3 : ∀ c ∈ ph, p c = false) : PhOK toksK ph :=
  ⟨h1, h2, hlb, hrb, ⟨p, lo, hi, hmem, hlo, h3⟩⟩

theorem email_at_mem : RTok.cls (fun x => x = '@') 1 (some 1) ∈ emailToks := by
  show RTok.lit '@' ∈ emailToks
  simp [emailToks]

theorem phone_digit_mem : RTok.cls asciiDigit 3 (some 3) ∈ phoneToks := by
  simp [phoneToks]

theorem emp_digit_mem : RTok.cls asciiDigit 5 none ∈ empToks := by
  simp [empToks]

theorem card_digit_mem : RTok.cls asciiDigit 4 (some 4) ∈ cardToks := by
  simp [cardToks]

theorem proj_dash_mem : RTok.cls (fun x => x = '-') 1 (some 1) ∈ projToks := by
  show RTok.lit '-' ∈ projToks
  simp [projToks]

/-- `PhOK` for the email pattern and any placeholder bracketed and free of
`@`. -/
theorem phokEmail (ph : List Char) (h1 : ph.head? = some '[')
    (h2 : ph.getLast? = some ']') (h3 : ∀ c ∈ ph, decide (c = '@') = false) :
    PhOK emailToks ph :=
  phokOf emailToks _ 1 (some 1) email_at_mem (le_refl 1) (by decide) (by decide)
    ph h1 h2 h3

theorem phokPhone (ph : List Char) (h1 : ph.head? = some '[')
    (h2 : ph.getLast? = some ']') (h3 : ∀ c ∈ ph, asciiDigit c = false) :
    PhOK phoneToks ph :=
  phokOf phoneToks _ 3 (some 3) phone_digit_mem (by decide) (by decide)
    (by decide) ph h1 h2 h3

theorem phokEmp (ph : List Char) (h1 : ph.head? = some '[')
    (h2 : ph.getLast? = some ']') (h3 : ∀ c ∈ ph, asciiDigit c = false) :
    PhOK empToks ph :=
  phokOf empToks _ 5 none emp_digit_mem (by decide) (by decide) (by decide)
    ph h1 h2 h3

theorem phokCard (ph : List Char) (h1 : ph.head? = some '[')
    (h2 : ph.getLast? = some ']') (h3 : ∀ c ∈ ph, asciiDigit c = false) :
    PhOK cardToks ph :=
  phokOf cardToks _ 4 (some 4) card_digit_mem (by decide) (by decide)
    (by decide) ph h1 h2 h3

theorem phokProj (ph : List Char) (h1 : ph.head? = some '[')
    (h2 : ph.getLast? = some ']') (h3 : ∀ c ∈ ph, decide (c = '-') = false) :
    PhOK projToks ph :=
  phokOf projToks _ 1 (some 1) proj_dash_mem (le_refl 1) (by decide) (by decide)
    ph h1 h2 h3

/-! ### Stage-level cleanliness of the five-pattern pipeline -/

/-- The text component of one redaction stage. -/
def stageText (pat : List RTok × String × String) (t : String) : String :=
  if hasMatch pat.1 t then String.mk (replaceAll pat.1 pat.2.1.data t.data) else t

theorem foldl_fst (pats : List (List RTok × String × String)) :
    ∀ st : String × Bool × List String,
      (pats.foldl redactStage st).1 =
        pats.foldl (fun s pat => stageText pat s) st.1 := by
  induction pats with
  | nil => intro st; rfl
  | cons pat rest ih =>
      intro st
      simp only [List.foldl_cons]
      have hone : (redactStage st pat).1 = stageText pat st.1 := by
        unfold redactStage stageText
        split <;> rfl
      rw [ih, hone]

theorem emailStageClean (ph lbl t : String) (hph : PhOK emailToks ph.data) :
    hasMatch emailToks (stageText (emailToks, ph, lbl) t) = false := by
  unfold stageText
  by_cases hc : hasMatch emailToks t = true
  · rw [if_pos hc]
    show hasMatchAux emailToks none (replaceAll emailToks ph.data t.data) = false
    unfold replaceAll
    exact masterSelfEmail ph.data hph t.data.length t.data none none (le_refl _)
  · rw [if_neg hc]
    revert hc
    cases hasMatch emailToks t <;> simp

theorem emailStagePres (toksJ : List RTok) (hJm : hasMandatory toksJ)
    (ph lbl t : String) (hph : PhOK emailToks ph.data)
    (hclean : hasMatch emailToks t = false) :
    hasMatch emailToks (stageText (toksJ, ph, lbl) t) = false := by
  unfold stageText
  by_cases hc : hasMatch toksJ t = true
  · rw [if_pos hc]
    show hasMatchAux emailToks none (replaceAll toksJ ph.data t.data) = false
    unfold replaceAll
    exact masterPreserveEmail toksJ ph.data hJm hph t.data.length t.data
      none none (le_refl _) hclean
  · rw [if_neg hc]
    exact hclean

theorem wordStageClean (K : WordToks) (hK : WordToksOK K) (ph lbl t : String)
    (hph : PhOK K.toks ph.data) :
    hasMatch K.toks (stageText (K.toks, ph, lbl) t) = false := by
  unfold stageText
  by_cases hc : hasMatch K.toks t = true
  · rw [if_pos hc]
    show hasMatchAux K.toks none (replaceAll K.toks ph.data t.data) = false
    unfold replaceAll
    exact masterSelfWord K hK ph.data hph t.data.length t.data none none
      (le_refl _) (Or.inl rfl)
  · rw [if_neg hc]
    revert hc
    cases hasMatch K.toks t <;> simp

theorem wordStagePres (K : WordToks) (hK : WordToksOK K)
    (J : WordToks) (hJ : WordToksOK J) (ph lbl t : String)
    (hph : PhOK K.toks ph.data) (hclean : hasMatch K.toks t = false) :
    hasMatch K.toks (stageText (J.toks, ph, lbl) t) = false := by
  unfold stageText
  by_cases hc : hasMatch J.toks t = true
  · rw [if_pos hc]
    show hasMatchAux K.toks none (replaceAll J.toks ph.data t.data) = false
    unfold replaceAll
    exact masterPreserveWord K hK J hJ ph.data hph t.data.length t.data
      none none (le_refl _) (Or.inl rfl) hclean
  · rw [if_neg hc]
    exact hclean

theorem phone_mand : hasMandatory phoneToks :=
  phoneW_toks ▸ wordToks_mand phoneW phoneW_ok

theorem emp_mand : hasMandatory empToks :=
  empW_toks ▸ wordToks_mand empW empW_ok

theorem card_mand : hasMandatory cardToks :=
  cardW_toks ▸ wordToks_mand cardW cardW_ok

theorem proj_mand : hasMandatory projToks :=
  projW_toks ▸ wordToks_mand projW projW_ok

/-! The fifteen pattern–placeholder compatibility facts used below:
each earlier or equal pattern against each later or equal placeholder. -/

theorem hph_e_e : PhOK emailToks "[REDACTED_EMAIL]".data :=
  phokEmail _ (by decide) (by decide) (by decide)

theorem hph_e_p : PhOK emailToks "[REDACTED_PHONE]".data :=
  phokEmail _ (by decide) (by decide) (by decide)

theorem hph_e_m : PhOK emailToks "[REDACTED_EMP_ID]".data :=
  phokEmail _ (by decide) (by decide) (by decide)

theorem hph_e_c : PhOK emailToks "[REDACTED_CREDIT_CARD]".data :=
  phokEmail _ (by decide) (by decide) (by decide)

theorem hph_e_j : PhOK emailToks "[REDACTED_PROJECT_CODE]".data :=
  phokEmail _ (by decide) (by decide) (by decide)

theorem hph_p_p : PhOK phoneToks "[REDACTED_PHONE]".data :=
  phokPhone _ (by decide) (by decide) (by decide)

theorem hph_p_m : PhOK phoneToks "[REDACTED_EMP_ID]".data :=
  phokPhone _ (by decide) (by decide) (by decide)

theorem hph_p_c : PhOK phoneToks "[REDACTED_CREDIT_CARD]".data :=
  phokPhone _ (by decide) (by decide) (by decide)

theorem hph_p_j : PhOK phoneToks "[REDACTED_PROJECT_CODE]".data :=
  phokPhone _ (by decide) (by decide) (by decide)

theorem hph_m_m : PhOK empToks "[REDACTED_EMP_ID]".data :=
  phokEmp _ (by decide) (by decide) (by decide)

theorem hph_m_c : PhOK empToks "[REDACTED_CREDIT_CARD]".data :=
  phokEmp _ (by decide) (by decide) (by decide)

theorem hph_m_j : PhOK empToks "[REDACTED_PROJECT_CODE]".data :=
  phokEmp _ (by decide) (by decide) (by decide)

theorem hph_c_c : PhOK cardToks "[REDACTED_CREDIT_CARD]".data :=
  phokCard _ (by decide) (by decide) (by decide)

theorem hph_c_j : PhOK cardToks "[REDACTED_PROJECT_CODE]".data :=
  phokCard _ (by decide) (by decide) (by decide)

theorem hph_j_j : PhOK projToks "[REDACTED_PROJECT_CODE]".data :=
  phokProj _ (by decide) (by decide) (by decide)

theorem pipelineText_clean (t : String) :
    piiPatterns.all
      (fun pat => !hasMatch pat.1 (piiPatterns.foldl redactStage (t, false, [])).1)
      = true := by
  rw [foldl_fst piiPatterns (t, false, [])]
  simp only [piiPatterns, List.foldl_cons, List.foldl_nil, List.all_cons,
    List.all_nil, Bool.and_true]
  set t1 := stageText (emailToks, "[REDACTED_EMAIL]", "Email PII detected") t with ht1
  set t2 := stageText (phoneToks, "[REDACTED_PHONE]", "Phone PII detected") t1 with ht2
  set t3 := stageText (empToks, "[REDACTED_EMP_ID]", "Employee ID detected") t2 with ht3
  set t4 := stageText (cardToks, "[REDACTED_CREDIT_CARD]", "Credit Card detected") t3 with ht4
  set t5 := stageText (projToks, "[REDACTED_PROJECT_CODE]", "Project Codeword detected") t4 with ht5
  have he1 : hasMatch emailToks t1 = false := by
    rw [ht1]; exact emailStageClean _ _ _ hph_e_e
  have he2 : hasMatch emailToks t2 = false := by
    rw [ht2]; exact emailStagePres phoneToks phone_mand _ _ _ hph_e_p he1
  have hp2 : hasMatch phoneToks t2 = false := by
    rw [ht2]; exact wordStageClean phoneW phoneW_ok _ _ _ hph_p_p
  have he3 : hasMatch emailToks t3 = false := by
    rw [ht3]; exact emailStagePres empToks emp_mand _ _ _ hph_e_m he2
  have hp3 : hasMatch phoneToks t3 = false := by
    rw [ht3]; exact wordStagePres phoneW phoneW_ok empW empW_ok _ _ _ hph_p_m hp2
  have hm3 : hasMatch empToks t3 = false := by
    rw [ht3]; exact wordStageClean empW empW_ok _ _ _ hph_m_m
  have he4 : hasMatch emailToks t4 = false := by
    rw [ht4]; exact emailStagePres cardToks card_mand _ _ _ hph_e_c he3
  have hp4 : hasMatch phoneToks t4 = false := by
    rw [ht4]; exact wordStagePres phoneW phoneW_ok cardW cardW_ok _ _ _ hph_p_c hp3
  have hm4 : hasMatch empToks t4 = false := by
    rw [ht4]; exact wordStagePres empW empW_ok cardW cardW_ok _ _ _ hph_m_c hm3
  have hc4 : hasMatch cardToks t4 = false := by
    rw [ht4]; exact wordStageClean cardW cardW_ok _ _ _ hph_c_c
  have he5 : hasMatch emailToks t5 = false := by
    rw [ht5]; exact emailStagePres projToks proj_mand _ _ _ hph_e_j he4
  have hp5 : hasMatch phoneToks t5 = false := by
    rw [ht5]; exact wordStagePres phoneW phoneW_ok projW projW_ok _ _ _ hph_p_j hp4
  have hm5 : hasMatch empToks t5 = false := by
    rw [ht5]; exact wordStagePres empW empW_ok projW projW_ok _ _ _ hph_m_j hm4
  have hc5 : hasMatch cardToks t5 = false := by
    rw [ht5]; exact wordStagePres cardW cardW_ok projW projW_ok _ _ _ hph_c_j hc4
  have hj5 : hasMatch projToks t5 = false := by
    rw [ht5]; exact wordStageClean projW projW_ok _ _ _ hph_j_j
  simp [he5, hp5, hm5, hc5, hj5]

/-- After one pass of the filter, no pattern matches any fragment. -/
theorem redactList_patternFree (parts : List Part) :
    ∀ (w : Bool) (js : List String),
      noPatternMatches (redactList parts w js).1 = true := by
  induction parts with
  | nil => intro w js; rfl
  | cons p ps ih =>
      intro w js
      cases hp : p.text with
      | none =>
          simp only [redactList, redactPart, hp]
          rw [noPatternMatches, List.all_cons]
          have h1 : partPatternFree p = true := by
            simp [partPatternFree, hp]
          rw [h1, Bool.true_and]
          exact ih w js
      | some t =>
          by_cases ht : t = ""
          · simp only [redactList, redactPart, hp, ht, eq_self_iff_true, ite_true]
            rw [noPatternMatches, List.all_cons]
            have h1 : partPatternFree p = true := by
              simp only [partPatternFree, hp, ht]
              decide
            rw [h1, Bool.true_and]
            exact ih w js
          · simp only [redactList, redactPart, hp]
            rw [if_neg ht]
            rw [noPatternMatches, List.all_cons]
            have h1 : partPatternFree
                { p with text := some (piiPatterns.foldl redactStage (t, w, js)).1 }
                = true := by
              show piiPatterns.all
                (fun pat => !hasMatch pat.1
                  (piiPatterns.foldl redactStage (t, w, js)).1) = true
              rw [(foldl_redactStage_norm piiPatterns t w js).1]
              exact pipelineText_clean t
            rw [h1, Bool.true_and]
            exact ih _ _

theorem redact_output_patternFree (parts : List Part) :
    noPatternMatches (PIIFilter.redact parts).redactedParts = true :=
  redactList_patternFree parts false []

/-- C8: redaction is idempotent — running `PIIFilter.redact` on the
`redactedParts` of a first run returns those parts unchanged, with
`wasRedacted = false` (and no justifications), because no placeholder
contains a substring matching any of the five patterns. -/
theorem c8_redact_idempotent (parts : List Part) :
    PIIFilter.redact (PIIFilter.redact parts).redactedParts =
      ⟨(PIIFilter.redact parts).redactedParts, false, []⟩ := by
  have h := redact_output_patternFree parts
  show (⟨(redactList (PIIFilter.redact parts).redactedParts false []).1,
    (redactList (PIIFilter.redact parts).redactedParts false []).2.1,
    (redactList (PIIFilter.redact parts).redactedParts false []).2.2⟩ :
      RedactResult) = _
  rw [redactList_nomatch _ false [] h]

end Governance
